import Mathlib

/-!
Verification of the news-bot core logic (`src/bot.v3.py`).

Strings are modelled shallowly as lists of Unicode code points (`Str := List Nat`),
matching Python's view of `str` as a sequence of characters.  Machine text
operations used by the bot (`str.split`, slicing, `in`, `lower`) are embedded as
executable functions on `Str`.
-/

/-- Python strings: sequences of code points (`Nat`). -/
abbrev Str := List Nat

/-- Build a `Str` from a Lean string literal. -/
def str (s : String) : Str := s.toList.map Char.toNat

/-- ASCII lower-casing of one code point, as used by `str.lower()` /
`re.IGNORECASE` on the bot's ASCII vocabulary. -/
def lowerCp (c : Nat) : Nat := if 65 ≤ c ∧ c ≤ 90 then c + 32 else c

/-- Lower-case a whole string. -/
def lowerStr (s : Str) : Str := s.map lowerCp

/-- Python regex `\w`: ASCII letters, digits and underscore. -/
def isWordCp (c : Nat) : Bool :=
  (decide (65 ≤ c) && decide (c ≤ 90)) || (decide (97 ≤ c) && decide (c ≤ 122)) ||
  (decide (48 ≤ c) && decide (c ≤ 57)) || (c == 95)

/-- Whitespace, as split on by Python `str.split()` (ASCII part). -/
def isWsCp (c : Nat) : Bool :=
  (c == 32) || (c == 9) || (c == 10) || (c == 13) || (c == 11) || (c == 12)

/-- `n` occurs at the start of `h`. -/
def begins : Str → Str → Bool
  | [], _ => true
  | _ :: _, [] => false
  | a :: n, b :: h => (a == b) && begins n h

/-- `n` occurs somewhere inside `h` (Python `n in h`). -/
def substr (n : Str) (h : Str) : Bool :=
  begins n h ||
    (match h with
     | [] => false
     | _ :: t => substr n t)

theorem begins_iff (n h : Str) : begins n h = true ↔ ∃ t, n ++ t = h := by
  induction n generalizing h with
  | nil => simp [begins]
  | cons a n ih =>
    cases h with
    | nil => simp [begins]
    | cons b h =>
      simp only [begins, Bool.and_eq_true, beq_iff_eq, ih]
      constructor
      · rintro ⟨rfl, t, rfl⟩; exact ⟨t, rfl⟩
      · rintro ⟨t, ht⟩
        cases ht
        exact ⟨rfl, t, rfl⟩

theorem substr_iff (n h : Str) : substr n h = true ↔ ∃ s t, s ++ n ++ t = h := by
  induction h with
  | nil =>
    rw [substr]
    cases n with
    | nil => simp [begins]
    | cons a n =>
      simp only [begins, Bool.false_or]
      constructor
      · intro hf; cases hf
      · rintro ⟨s, t, ht⟩
        simp at ht
  | cons b h ih =>
    rw [substr]
    simp only [Bool.or_eq_true, begins_iff, ih]
    constructor
    · rintro (⟨t, ht⟩ | ⟨s, t, rfl⟩)
      · exact ⟨[], t, by simpa using ht⟩
      · exact ⟨b :: s, t, rfl⟩
    · rintro ⟨s, t, hst⟩
      cases s with
      | nil => exact Or.inl ⟨t, by simpa using hst⟩
      | cons c s =>
        simp only [List.cons_append] at hst
        cases hst
        exact Or.inr ⟨s, t, rfl⟩

/-!
## Text Sanitizer (`sanitize_text`, bot.v3.py lines 62-101)

Python applies `re.sub(r"\bword\b", replacement, text, flags=re.IGNORECASE)` for a
fixed, ordered table of rules.  `re.sub` scans left to right, replacing each
non-overlapping match and resuming the scan right after the matched portion.
A match of `\bword\b` at a position requires the pattern case-insensitively,
a word boundary before (start of string or a non-`\w` character) and a word
boundary after (end of string or a non-`\w` character).
-/

/-- Case-insensitive equality of strings (ASCII case folding, matching the
ASCII-only vocabulary of the rule table). -/
def lowerEq (u v : Str) : Prop := lowerStr u = lowerStr v

instance : DecidablePred fun uv : Str × Str => lowerEq uv.1 uv.2 := fun _ =>
  decEq _ _

instance (u v : Str) : Decidable (lowerEq u v) := decEq _ _

/-- Word boundary test against the character preceding the current scan
position (`none` = start of string). -/
def bOk : Option Nat → Bool
  | none => true
  | some c => !isWordCp c

/-- Head-of-rest boundary: end of string or a non-word character next. -/
def boundaryAfter : Str → Bool
  | [] => true
  | c :: _ => !isWordCp c

/-- The regex `\bpat\b` (with `pat` a word made of word characters) matches at
the start of `t`: `pat` case-insensitively heads `t` and is followed by a
non-word character or the end. -/
def ciMatch (pat t : Str) : Bool :=
  decide (pat.length ≤ t.length) &&
  decide (lowerStr (t.take pat.length) = lowerStr pat) &&
  boundaryAfter (t.drop pat.length)

/-- The full firing condition of `re.sub(r"\bpat\b", ...)` at the current scan
position, `prev` being the character just before it. -/
def fires (pat : Str) (prev : Option Nat) (t : Str) : Bool :=
  decide (pat ≠ []) && bOk prev && ciMatch pat t

/-- One `re.sub(r"\bpat\b", rep, ·)` pass over the remaining text `t`, with
`prev` the original character preceding `t` (for the left boundary). -/
def subAux (pat rep : Str) (prev : Option Nat) (t : Str) : Str :=
  match t with
  | [] => []
  | c :: rest =>
    if fires pat prev (c :: rest) then
      rep ++ subAux pat rep (some (((c :: rest).take pat.length).getLastD c))
        ((c :: rest).drop pat.length)
    else
      c :: subAux pat rep (some c) rest
termination_by t.length
decreasing_by
  · simp only [List.length_drop, List.length_cons]
    have : pat ≠ [] := by
      by_contra he
      simp [fires, he] at *
    have : 0 < pat.length := List.length_pos.mpr this
    omega
  · simp

/-- `re.sub(r"\bpat\b", rep, s, flags=re.IGNORECASE)`. -/
def subWord (pat rep : Str) (s : Str) : Str := subAux pat rep none s

/-- Whether `\bpat\b` matches anywhere in the remaining text (same scan as
`subAux`, but only looking). -/
def hasMatch (pat : Str) (prev : Option Nat) : Str → Bool
  | [] => false
  | c :: rest => fires pat prev (c :: rest) || hasMatch pat (some c) rest

/-- The replacement table of `sanitize_text`, in source order. -/
def rules : List (Str × Str) :=
  [ (str "kill", str "Ki*ll"),
    (str "kills", str "Ki*lls"),
    (str "killed", str "Kil*led"),
    (str "murder", str "Mu*rder"),
    (str "murders", str "Mu*rders"),
    (str "murdered", str "Mur*dered"),
    (str "assassinate", str "As*sa*ssinate"),
    (str "assassinates", str "As*sa*ssinates"),
    (str "assassinated", str "As*sa*ssinated"),
    (str "stab", str "St*ab"),
    (str "stabs", str "St*abs"),
    (str "stabbed", str "St*abbed"),
    (str "slaughter", str "Sl*aughter"),
    (str "slaughters", str "Sl*aughters"),
    (str "slaughtered", str "Sl*aughtered"),
    (str "rape", str "Ra*pe"),
    (str "rapes", str "Ra*pes"),
    (str "raped", str "Ra*ped"),
    (str "gaza", str "Ga*za"),
    (str "israel", str "Isr*ael"),
    (str "palestine", str "Pa*le*stine") ]

/-- Apply a list of rules in order, each as one `re.sub` pass. -/
def applyRules (rs : List (Str × Str)) (s : Str) : Str :=
  rs.foldl (fun acc pr => subWord pr.1 pr.2 acc) s

/-- `sanitize_text` (bot.v3.py line 62): empty input is returned unchanged,
otherwise every rule is applied in table order. -/
def sanitize_text (s : Str) : Str :=
  if s = [] then s else applyRules rules s

/-!
### Word tokens

To reason about `\b`-delimited matching we decompose a string into its maximal
runs of word characters ("tokens").  A `\bpat\b` match is exactly a token that
equals `pat` case-insensitively.
-/

/-- Accumulator-based tokenizer; `acc` holds the current word run, reversed. -/
def tokensAux : Str → Str → List Str
  | acc, [] => if acc = [] then [] else [acc.reverse]
  | acc, c :: rest =>
    if isWordCp c then tokensAux (c :: acc) rest
    else if acc = [] then tokensAux [] rest
    else acc.reverse :: tokensAux [] rest

/-- The maximal word-character runs of `s`, in order. -/
def tokens (s : Str) : List Str := tokensAux [] s

theorem isWordCp_iff (c : Nat) :
    isWordCp c = true ↔
      ((65 ≤ c ∧ c ≤ 90) ∨ (97 ≤ c ∧ c ≤ 122) ∨ (48 ≤ c ∧ c ≤ 57) ∨ c = 95) := by
  simp [isWordCp]
  tauto

/-- Case variants of a word character are word characters. -/
theorem wordCp_transfer {a b : Nat} (h : lowerCp a = lowerCp b)
    (hb : isWordCp b = true) : isWordCp a = true := by
  rw [isWordCp_iff] at hb ⊢
  unfold lowerCp at h
  split at h <;> split at h <;> omega

/-- Case variants of an all-word-character string are all word characters. -/
theorem allWord_transfer : ∀ {u v : Str}, lowerStr u = lowerStr v →
    v.all isWordCp = true → u.all isWordCp = true := by
  intro u
  induction u with
  | nil => intro v _ _; rfl
  | cons a u ih =>
    intro v h hv
    cases v with
    | nil => simp [lowerStr] at h
    | cons b v =>
      simp only [lowerStr, List.map_cons, List.cons.injEq] at h
      simp only [List.all_cons, Bool.and_eq_true] at hv ⊢
      exact ⟨wordCp_transfer h.1 hv.1, ih h.2 hv.2⟩

theorem lowerEq_length {u v : Str} (h : lowerEq u v) : u.length = v.length := by
  have := congrArg List.length h
  simpa [lowerStr] using this

/-- Tokenizing a word run followed by a boundary. -/
theorem tokensAux_run : ∀ (v acc rest : Str), v.all isWordCp = true →
    boundaryAfter rest = true → (acc ≠ [] ∨ v ≠ []) →
    tokensAux acc (v ++ rest) = (acc.reverse ++ v) :: tokens rest := by
  intro v
  induction v with
  | nil =>
    intro acc rest _ hb hne
    have hacc : acc ≠ [] := by
      rcases hne with h | h
      · exact h
      · exact absurd rfl h
    cases rest with
    | nil => simp [tokensAux, hacc, tokens]
    | cons d r' =>
      have hd : isWordCp d = false := by
        simpa [boundaryAfter] using hb
      simp [tokensAux, hacc, hd, tokens]
  | cons c v ih =>
    intro acc rest hall hb _
    simp only [List.all_cons, Bool.and_eq_true] at hall
    simp only [List.cons_append, tokensAux, hall.1, if_pos]
    have := ih (c :: acc) rest hall.2 hb (Or.inl (by simp))
    simpa using this

/-- Tokenizing a concatenation whose right part starts at a boundary. -/
theorem tokensAux_append : ∀ (r acc out : Str), boundaryAfter out = true →
    tokensAux acc (r ++ out) = tokensAux acc r ++ tokens out := by
  intro r
  induction r with
  | nil =>
    intro acc out hb
    cases out with
    | nil => by_cases hacc : acc = [] <;> simp [tokensAux, tokens, hacc]
    | cons d r' =>
      have hd : isWordCp d = false := by simpa [boundaryAfter] using hb
      by_cases hacc : acc = [] <;> simp [tokensAux, tokens, hacc, hd]
  | cons c r ih =>
    intro acc out hb
    by_cases hc : isWordCp c = true
    · simp only [List.cons_append, tokensAux, hc, if_pos]
      exact ih _ _ hb
    · simp only [Bool.not_eq_true] at hc
      by_cases hacc : acc = [] <;>
        simp [tokensAux, hc, hacc, ih _ _ hb]

/-- A pass with no match anywhere leaves the text unchanged. -/
theorem subAux_id (pat rep : Str) : ∀ (t : Str) (prev : Option Nat),
    hasMatch pat prev t = false → subAux pat rep prev t = t := by
  intro t
  induction t with
  | nil => intro prev _; simp [subAux]
  | cons c rest ih =>
    intro prev h
    rw [hasMatch] at h
    simp only [Bool.or_eq_false_iff] at h
    rw [subAux, if_neg (by simp [h.1]), ih (some c) h.2]

theorem take_len_append : ∀ (u w : Str), (u ++ w).take u.length = u := by
  intro u w
  induction u with
  | nil => rfl
  | cons x u ih => simp [ih]

theorem drop_len_append : ∀ (u w : Str), (u ++ w).drop u.length = w := by
  intro u w
  induction u with
  | nil => rfl
  | cons x u ih => simp [ih]

theorem boundaryAfter_dropWhile : ∀ (l : Str),
    boundaryAfter (l.dropWhile isWordCp) = true := by
  intro l
  induction l with
  | nil => rfl
  | cons c rest ih =>
    by_cases hc : isWordCp c = true
    · simpa [List.dropWhile, hc] using ih
    · simp only [Bool.not_eq_true] at hc
      simp [List.dropWhile, hc, boundaryAfter]

theorem getLastD_mem : ∀ (l : Str) (d : Nat), l ≠ [] → l.getLastD d ∈ l := by
  intro l
  induction l with
  | nil => intro d h; exact absurd rfl h
  | cons x l ih =>
    intro d _
    cases l with
    | nil => simp [List.getLastD]
    | cons y l =>
      have := ih d (by simp)
      simp only [List.getLastD] at this ⊢
      exact List.mem_cons_of_mem _ this

/-- A substitution pass cannot put a word character in front of a boundary:
if the remaining text starts at a boundary, so does its image. -/
theorem subAux_boundary (pat rep : Str) (hp : pat ≠ [])
    (hw : pat.all isWordCp = true) (prev : Option Nat) (t : Str)
    (hb : boundaryAfter t = true) :
    boundaryAfter (subAux pat rep prev t) = true := by
  cases t with
  | nil => simpa [subAux] using hb
  | cons c rest =>
    have hc : isWordCp c = false := by simpa [boundaryAfter] using hb
    have hf : fires pat prev (c :: rest) = false := by
      cases pat with
      | nil => exact absurd rfl hp
      | cons p0 pt =>
        by_contra hcon
        simp only [Bool.not_eq_false, fires, Bool.and_eq_true] at hcon
        obtain ⟨-, hci⟩ := hcon
        simp only [ciMatch, Bool.and_eq_true, decide_eq_true_eq] at hci
        obtain ⟨⟨hlen, hlow⟩, hba⟩ := hci
        rw [List.length_cons, List.take_succ_cons] at hlow
        simp only [lowerStr, List.map_cons, List.cons.injEq] at hlow
        have : isWordCp c = true :=
          wordCp_transfer hlow.1 (by simp [List.all_cons] at hw; exact hw.1)
        rw [this] at hc
        exact Bool.noConfusion hc
    rw [subAux, if_neg (by simp [hf])]
    simp [boundaryAfter, hc]

/-- A `\b…\b` match somewhere in the text exhibits a token equal to the
pattern up to case. -/
theorem hasMatch_token (pat : Str) (hp : pat ≠ []) (hw : pat.all isWordCp = true) :
    ∀ (t : Str) (prev : Option Nat) (acc : Str),
      (bOk prev = true → acc = []) →
      hasMatch pat prev t = true →
      ∃ tok ∈ tokensAux acc t, lowerEq tok pat := by
  intro t
  induction t with
  | nil => intro prev acc _ h; simp [hasMatch] at h
  | cons c rest ih =>
    intro prev acc hinv h
    rw [hasMatch, Bool.or_eq_true] at h
    rcases h with h | h
    · simp only [fires, Bool.and_eq_true] at h
      obtain ⟨⟨-, hbok⟩, hci⟩ := h
      simp only [ciMatch, Bool.and_eq_true, decide_eq_true_eq] at hci
      obtain ⟨⟨hlen, hlow⟩, hba⟩ := hci
      obtain rfl := hinv hbok
      set t0 : Str := c :: rest with ht0
      have hvw : (t0.take pat.length).all isWordCp = true := allWord_transfer hlow hw
      have hvlen : (t0.take pat.length).length = pat.length := by
        rw [List.length_take]; omega
      have hvne : t0.take pat.length ≠ [] := by
        intro he
        rw [he] at hvlen
        exact hp (List.length_eq_zero.mp hvlen.symm)
      refine ⟨t0.take pat.length, ?_, hlow⟩
      have hrun := tokensAux_run (t0.take pat.length) [] (t0.drop pat.length)
        hvw hba (Or.inr hvne)
      rw [List.take_append_drop] at hrun
      rw [hrun]
      simp
    · by_cases hc : isWordCp c = true
      · obtain ⟨tok, hmem, hle⟩ :=
          ih (some c) (c :: acc) (by simp [bOk, hc]) h
        exact ⟨tok, by simpa [tokensAux, hc] using hmem, hle⟩
      · simp only [Bool.not_eq_true] at hc
        obtain ⟨tok, hmem, hle⟩ := ih (some c) [] (fun _ => rfl) h
        refine ⟨tok, ?_, hle⟩
        by_cases hacc : acc = []
        · simpa [tokensAux, hc, hacc] using hmem
        · simp only [tokensAux, hc, Bool.false_eq_true, if_false, hacc, if_neg]
          exact List.mem_cons_of_mem _ hmem

/-- Every token is a nonempty word-character run flanked by boundaries. -/
theorem token_decomp : ∀ (t acc : Str), acc.all isWordCp = true →
    ∀ tok ∈ tokensAux acc t, tok ≠ [] ∧ tok.all isWordCp = true ∧
      ∃ a b, acc.reverse ++ t = a ++ tok ++ b ∧
        (a = [] ∨ ∃ c, a.getLast? = some c ∧ isWordCp c = false) ∧
        boundaryAfter b = true := by
  intro t
  induction t with
  | nil =>
    intro acc hacc tok hmem
    by_cases h : acc = []
    · simp [tokensAux, h] at hmem
    · simp only [tokensAux, if_neg h, List.mem_singleton] at hmem
      subst hmem
      refine ⟨by simpa using h, by simpa using hacc, [], [], by simp, Or.inl rfl, rfl⟩
  | cons c rest ih =>
    intro acc hacc tok hmem
    by_cases hc : isWordCp c = true
    · rw [show tokensAux acc (c :: rest) = tokensAux (c :: acc) rest by
        simp [tokensAux, hc]] at hmem
      obtain ⟨h1, h2, a, b, heq, hbefore, hafter⟩ :=
        ih (c :: acc) (by simp [hc, hacc]) tok hmem
      refine ⟨h1, h2, a, b, ?_, hbefore, hafter⟩
      simpa using heq
    · simp only [Bool.not_eq_true] at hc
      by_cases hacc0 : acc = []
      · subst hacc0
        rw [show tokensAux [] (c :: rest) = tokensAux [] rest by
          simp [tokensAux, hc]] at hmem
        obtain ⟨h1, h2, a, b, heq, hbefore, hafter⟩ := ih [] rfl tok hmem
        simp only [List.reverse_nil, List.nil_append] at heq
        refine ⟨h1, h2, c :: a, b, by simp [heq], Or.inr ?_, hafter⟩
        rcases hbefore with rfl | ⟨c', hlast, hcw⟩
        · exact ⟨c, rfl, hc⟩
        · refine ⟨c', ?_, hcw⟩
          cases a with
          | nil => simp at hlast
          | cons x a' => rw [List.getLast?_cons_cons]; exact hlast
      · rw [show tokensAux acc (c :: rest) = acc.reverse :: tokensAux [] rest by
          simp [tokensAux, hc, hacc0]] at hmem
        rcases List.mem_cons.mp hmem with rfl | hmem'
        · refine ⟨by simpa using hacc0, by simpa using hacc, [], c :: rest,
            by simp, Or.inl rfl, ?_⟩
          simp [boundaryAfter, hc]
        · obtain ⟨h1, h2, a, b, heq, hbefore, hafter⟩ := ih [] rfl tok hmem'
          simp only [List.reverse_nil, List.nil_append] at heq
          refine ⟨h1, h2, acc.reverse ++ c :: a, b, by simp [heq], Or.inr ?_, hafter⟩
          rcases hbefore with rfl | ⟨c', hlast, hcw⟩
          · exact ⟨c, by simp, hc⟩
          · refine ⟨c', ?_, hcw⟩
            cases a with
            | nil => simp at hlast
            | cons x a' =>
              rw [List.getLast?_append, List.getLast?_cons_cons, hlast]
              rfl

/-- Build a `\b…\b` match from a boundary-flanked case variant of the word. -/
theorem hasMatch_of_decomp (q : Str) (hq : q ≠ []) :
    ∀ (a : Str) (prev : Option Nat) (tok b : Str),
      lowerEq tok q → boundaryAfter b = true →
      (a = [] → bOk prev = true) →
      (∀ c, a.getLast? = some c → isWordCp c = false) →
      hasMatch q prev (a ++ tok ++ b) = true := by
  intro a
  induction a with
  | nil =>
    intro prev tok b hle hb hnil _
    have hlen : tok.length = q.length := lowerEq_length hle
    have htokne : tok ≠ [] := by
      intro he
      rw [he] at hlen
      exact hq (List.length_eq_zero.mp hlen.symm)
    obtain ⟨x, tok', rfl⟩ := List.exists_cons_of_ne_nil htokne
    have htake : ((x :: tok') ++ b).take q.length = x :: tok' := by
      rw [← hlen]; exact take_len_append _ _
    have hdrop : ((x :: tok') ++ b).drop q.length = b := by
      rw [← hlen]; exact drop_len_append _ _
    rw [List.nil_append, List.cons_append, hasMatch, Bool.or_eq_true]
    left
    rw [← List.cons_append]
    simp only [fires, Bool.and_eq_true]
    refine ⟨⟨by simp [hq], hnil rfl⟩, ?_⟩
    simp only [ciMatch, Bool.and_eq_true, decide_eq_true_eq]
    refine ⟨⟨?_, ?_⟩, ?_⟩
    · rw [List.length_append, ← hlen]
      omega
    · rw [htake]; exact hle
    · rw [hdrop]; exact hb
  | cons x a ih =>
    intro prev tok b hle hb _ hlastcond
    rw [List.cons_append, List.cons_append, hasMatch, Bool.or_eq_true]
    right
    refine ih (some x) tok b hle hb ?_ ?_
    · intro ha
      subst ha
      have : isWordCp x = false := hlastcond x (by simp)
      simp [bOk, this]
    · intro c hlast
      apply hlastcond
      cases a with
      | nil => simp at hlast
      | cons y a' => rw [List.getLast?_cons_cons]; exact hlast

/-- A token equal to the word up to case yields a match of `\bword\b`. -/
theorem hasMatch_of_token (q : Str) (hq : q ≠ []) (s tok : Str)
    (hmem : tok ∈ tokens s) (hle : lowerEq tok q) :
    hasMatch q none s = true := by
  obtain ⟨-, -, a, b, heq, hbefore, hafter⟩ := token_decomp s [] rfl tok hmem
  simp only [List.reverse_nil, List.nil_append] at heq
  rw [heq]
  refine hasMatch_of_decomp q hq a none tok b hle hafter (fun _ => rfl) ?_
  intro c hlast
  rcases hbefore with rfl | ⟨c', hlast', hcw⟩
  · simp at hlast
  · rw [hlast'] at hlast
    cases hlast
    exact hcw

theorem all_takeWhile (l : Str) : (l.takeWhile isWordCp).all isWordCp = true := by
  induction l with
  | nil => rfl
  | cons c rest ih =>
    by_cases hc : isWordCp c = true <;>
      simp [List.takeWhile_cons, hc, ih]

/-- Where tokens of a substituted text come from: every token of
`subAux pat rep prev t` is either a token of `t` that is not a case variant of
`pat`, or a token of the replacement string.  The three invariants relate the
scanning state to the accumulator of the tokenizer. -/
theorem subAux_tokens (pat rep : Str) (hp : pat ≠ []) (hw : pat.all isWordCp = true) :
    ∀ (n : Nat) (t : Str), t.length ≤ n → ∀ (prev : Option Nat) (acc : Str),
      (bOk prev = true → acc = []) →
      (acc ≠ [] → ¬ lowerEq (acc.reverse ++ t.takeWhile isWordCp) pat) →
      (acc = [] → bOk prev = false → boundaryAfter t = true) →
      ∀ tok ∈ tokensAux acc (subAux pat rep prev t),
        (tok ∈ tokensAux acc t ∧ ¬ lowerEq tok pat) ∨ tok ∈ tokens rep := by
  have nilCase : ∀ (prev : Option Nat) (acc : Str),
      (acc ≠ [] → ¬ lowerEq (acc.reverse ++ List.takeWhile isWordCp []) pat) →
      ∀ tok ∈ tokensAux acc (subAux pat rep prev []),
        (tok ∈ tokensAux acc ([] : Str) ∧ ¬ lowerEq tok pat) ∨ tok ∈ tokens rep := by
    intro prev acc hinv2 tok hmem
    rw [show subAux pat rep prev [] = [] from by simp [subAux]] at hmem
    left
    refine ⟨hmem, ?_⟩
    by_cases hacc : acc = []
    · rw [hacc] at hmem; simp [tokensAux] at hmem
    · simp only [tokensAux, if_neg hacc, List.mem_singleton] at hmem
      subst hmem
      simpa using hinv2 hacc
  intro n
  induction n with
  | zero =>
    intro t hlen prev acc _ hinv2 _ tok hmem
    have ht : t = [] := List.length_eq_zero.mp (Nat.le_zero.mp hlen)
    subst ht
    exact nilCase prev acc hinv2 tok hmem
  | succ n ihn =>
    intro t hlen prev acc hinv1 hinv2 hinv3 tok hmem
    cases t with
    | nil => exact nilCase prev acc hinv2 tok hmem
    | cons c rest =>
      by_cases hf : fires pat prev (c :: rest) = true
      · -- the pattern fires here: the match is replaced by `rep`
        have hf' := hf
        simp only [fires, Bool.and_eq_true] at hf'
        obtain ⟨⟨-, hbok⟩, hci⟩ := hf'
        simp only [ciMatch, Bool.and_eq_true, decide_eq_true_eq] at hci
        obtain ⟨⟨hlen2, hlow⟩, hba⟩ := hci
        obtain rfl := hinv1 hbok
        rw [show subAux pat rep prev (c :: rest) =
            rep ++ subAux pat rep (some (((c :: rest).take pat.length).getLastD c))
              ((c :: rest).drop pat.length) from by rw [subAux, if_pos hf]] at hmem
        have hbout : boundaryAfter (subAux pat rep
            (some (((c :: rest).take pat.length).getLastD c))
            ((c :: rest).drop pat.length)) = true :=
          subAux_boundary pat rep hp hw _ _ hba
        rw [tokensAux_append rep [] _ hbout] at hmem
        rcases List.mem_append.mp hmem with hrep | hout
        · exact Or.inr hrep
        · have hplen : 0 < pat.length := List.length_pos.mpr hp
          have hr2len : ((c :: rest).drop pat.length).length ≤ n := by
            simp only [List.length_drop, List.length_cons]
            simp only [List.length_cons] at hlen
            omega
          have ih := ihn ((c :: rest).drop pat.length) hr2len
            (some (((c :: rest).take pat.length).getLastD c)) []
            (fun _ => rfl) (fun h => absurd rfl h) (fun _ _ => hba) tok hout
          rcases ih with ⟨hmem2, hnle⟩ | hrep
          · left
            refine ⟨?_, hnle⟩
            have hvw : ((c :: rest).take pat.length).all isWordCp = true :=
              allWord_transfer hlow hw
            have hvne : (c :: rest).take pat.length ≠ [] := by
              intro he
              have := congrArg List.length he
              simp only [List.length_take, List.length_cons] at this
              simp only [List.length_nil] at this
              omega
            have hrun := tokensAux_run ((c :: rest).take pat.length) []
              ((c :: rest).drop pat.length) hvw hba (Or.inr hvne)
            rw [List.take_append_drop] at hrun
            rw [hrun]
            simp only [List.reverse_nil, List.nil_append]
            exact List.mem_cons_of_mem _ hmem2
          · exact Or.inr hrep
      · -- no match at this position: the character is copied
        rw [show subAux pat rep prev (c :: rest) =
            c :: subAux pat rep (some c) rest from by rw [subAux, if_neg hf]] at hmem
        by_cases hc : isWordCp c = true
        · rw [show tokensAux acc (c :: subAux pat rep (some c) rest) =
              tokensAux (c :: acc) (subAux pat rep (some c) rest) from by
            simp [tokensAux, hc]] at hmem
          have hinv2' : (c :: acc) ≠ [] →
              ¬ lowerEq ((c :: acc).reverse ++ rest.takeWhile isWordCp) pat := by
            intro _
            by_cases hacc : acc = []
            · subst hacc
              by_cases hbok : bOk prev = true
              · intro hle
                simp only [List.reverse_cons, List.reverse_nil, List.nil_append,
                  List.singleton_append] at hle
                apply hf
                have hcomp : (c :: rest.takeWhile isWordCp) ++
                    (c :: rest).dropWhile isWordCp = c :: rest := by
                  rw [show c :: rest.takeWhile isWordCp =
                      (c :: rest).takeWhile isWordCp from by
                    simp [List.takeWhile_cons, hc]]
                  exact List.takeWhile_append_dropWhile isWordCp (c :: rest)
                have hlenR : (c :: rest.takeWhile isWordCp).length = pat.length :=
                  lowerEq_length hle
                simp only [fires, Bool.and_eq_true]
                refine ⟨⟨by simp [hp], hbok⟩, ?_⟩
                simp only [ciMatch, Bool.and_eq_true, decide_eq_true_eq]
                refine ⟨⟨?_, ?_⟩, ?_⟩
                · have := congrArg List.length hcomp
                  simp only [List.length_append] at this
                  omega
                · rw [← hcomp, ← hlenR, take_len_append]
                  exact hle
                · rw [← hcomp, ← hlenR, drop_len_append]
                  exact boundaryAfter_dropWhile _
              · have := hinv3 rfl (by simpa using hbok)
                simp [boundaryAfter, hc] at this
            · intro hle
              apply hinv2 hacc
              rw [show (c :: rest).takeWhile isWordCp =
                  c :: rest.takeWhile isWordCp from by simp [List.takeWhile_cons, hc]]
              simpa using hle
          have ih := ihn rest (by simp only [List.length_cons] at hlen; omega)
            (some c) (c :: acc)
            (by intro h; simp [bOk, hc] at h)
            hinv2'
            (by intro h; simp at h)
            tok hmem
          rcases ih with ⟨hmem2, hnle⟩ | hrep
          · left
            refine ⟨?_, hnle⟩
            rw [show tokensAux acc (c :: rest) = tokensAux (c :: acc) rest from by
              simp [tokensAux, hc]]
            exact hmem2
          · exact Or.inr hrep
        · simp only [Bool.not_eq_true] at hc
          have hihargs : ∀ tok₂, tok₂ ∈ tokensAux [] (subAux pat rep (some c) rest) →
              (tok₂ ∈ tokensAux [] rest ∧ ¬ lowerEq tok₂ pat) ∨ tok₂ ∈ tokens rep := by
            intro tok₂ hm
            exact ihn rest (by simp only [List.length_cons] at hlen; omega)
              (some c) [] (fun _ => rfl) (fun h => absurd rfl h)
              (by intro _ hbokf; simp [bOk, hc] at hbokf) tok₂ hm
          by_cases hacc : acc = []
          · subst hacc
            rw [show tokensAux [] (c :: subAux pat rep (some c) rest) =
                tokensAux [] (subAux pat rep (some c) rest) from by
              simp [tokensAux, hc]] at hmem
            rcases hihargs tok hmem with ⟨hmem2, hnle⟩ | hrep
            · left
              refine ⟨?_, hnle⟩
              rw [show tokensAux ([] : Str) (c :: rest) = tokensAux [] rest from by
                simp [tokensAux, hc]]
              exact hmem2
            · exact Or.inr hrep
          · rw [show tokensAux acc (c :: subAux pat rep (some c) rest) =
                acc.reverse :: tokensAux [] (subAux pat rep (some c) rest) from by
              simp [tokensAux, hc, hacc]] at hmem
            rcases List.mem_cons.mp hmem with rfl | hmem'
            · left
              constructor
              · rw [show tokensAux acc (c :: rest) =
                    acc.reverse :: tokensAux [] rest from by
                  simp [tokensAux, hc, hacc]]
                exact List.mem_cons_self _ _
              · have := hinv2 hacc
                rw [show (c :: rest).takeWhile isWordCp = [] from by
                  simp [List.takeWhile_cons, hc]] at this
                simpa using this
            · rcases hihargs tok hmem' with ⟨hmem2, hnle⟩ | hrep
              · left
                refine ⟨?_, hnle⟩
                rw [show tokensAux acc (c :: rest) =
                    acc.reverse :: tokensAux [] rest from by
                  simp [tokensAux, hc, hacc]]
                exact List.mem_cons_of_mem _ hmem2
              · exact Or.inr hrep

/-- After one pass of a rule, the rule's own word no longer matches anywhere
(provided no token of the replacement is a case variant of the word). -/
theorem subWord_no_self_match (pat rep : Str) (hp : pat ≠ [])
    (hw : pat.all isWordCp = true)
    (hrep : ∀ tok ∈ tokens rep, ¬ lowerEq tok pat) (s : Str) :
    hasMatch pat none (subWord pat rep s) = false := by
  by_contra h
  rw [Bool.not_eq_false] at h
  obtain ⟨tok, hmem, hle⟩ := hasMatch_token pat hp hw _ none [] (fun _ => rfl) h
  rcases subAux_tokens pat rep hp hw s.length s le_rfl none []
      (fun _ => rfl) (fun h' => absurd rfl h')
      (by intro _ hb; simp [bOk] at hb) tok hmem with ⟨-, hnle⟩ | hrep2
  · exact hnle hle
  · exact hrep tok hrep2 hle

/-- A pass of one rule cannot create a match of another word `q` that was not
already present (provided no token of the replacement is a case variant of
`q`). -/
theorem subWord_no_new_match (pat rep q : Str) (hp : pat ≠ [])
    (hw : pat.all isWordCp = true) (hq : q ≠ []) (hqw : q.all isWordCp = true)
    (hrepq : ∀ tok ∈ tokens rep, ¬ lowerEq tok q) (s : Str)
    (hs : hasMatch q none s = false) :
    hasMatch q none (subWord pat rep s) = false := by
  by_contra h
  rw [Bool.not_eq_false] at h
  obtain ⟨tok, hmem, hle⟩ := hasMatch_token q hq hqw _ none [] (fun _ => rfl) h
  rcases subAux_tokens pat rep hp hw s.length s le_rfl none []
      (fun _ => rfl) (fun h' => absurd rfl h')
      (by intro _ hb; simp [bOk] at hb) tok hmem with ⟨hmem2, -⟩ | hrep2
  · rw [hasMatch_of_token q hq s tok hmem2 hle] at hs
    exact Bool.noConfusion hs
  · exact hrepq tok hrep2 hle

/-- Applying a list of rules preserves the absence of matches of a word `q`
that no replacement token can recreate. -/
theorem applyRules_preserve (q : Str) (hq : q ≠ []) (hqw : q.all isWordCp = true) :
    ∀ (rs : List (Str × Str)) (s : Str),
      (∀ pr ∈ rs, pr.1 ≠ [] ∧ pr.1.all isWordCp = true) →
      (∀ pr ∈ rs, ∀ tok ∈ tokens pr.2, ¬ lowerEq tok q) →
      hasMatch q none s = false →
      hasMatch q none (applyRules rs s) = false := by
  intro rs
  induction rs with
  | nil => intro s _ _ hs; exact hs
  | cons pr rs ih =>
    intro s hfacts hrep hs
    have hf := hfacts pr (List.mem_cons_self _ _)
    exact ih (subWord pr.1 pr.2 s)
      (fun x hx => hfacts x (List.mem_cons_of_mem _ hx))
      (fun x hx => hrep x (List.mem_cons_of_mem _ hx))
      (subWord_no_new_match pr.1 pr.2 q hf.1 hf.2 hq hqw
        (hrep pr (List.mem_cons_self _ _)) s hs)

/-- After applying all rules of a well-formed table, no rule of the table
matches the result. -/
theorem applyRules_no_match :
    ∀ (rs : List (Str × Str)) (s : Str),
      (∀ pr ∈ rs, pr.1 ≠ [] ∧ pr.1.all isWordCp = true) →
      (∀ pr ∈ rs, ∀ qr ∈ rs, ∀ tok ∈ tokens qr.2, ¬ lowerEq tok pr.1) →
      ∀ pr ∈ rs, hasMatch pr.1 none (applyRules rs s) = false := by
  intro rs
  induction rs with
  | nil => intro s _ _ pr hmem; exact absurd hmem (List.not_mem_nil _)
  | cons ρ rs ih =>
    intro s hfacts hcross pr hmem
    have hρ := hfacts ρ (List.mem_cons_self _ _)
    rcases List.mem_cons.mp hmem with rfl | hmem'
    · -- the head rule: eliminated by its own pass, preserved by the rest
      have h1 : hasMatch pr.1 none (subWord pr.1 pr.2 s) = false :=
        subWord_no_self_match pr.1 pr.2 hρ.1 hρ.2
          (hcross pr (List.mem_cons_self _ _) pr (List.mem_cons_self _ _)) s
      exact applyRules_preserve pr.1 hρ.1 hρ.2 rs (subWord pr.1 pr.2 s)
        (fun x hx => hfacts x (List.mem_cons_of_mem _ hx))
        (fun x hx => hcross pr (List.mem_cons_self _ _) x
          (List.mem_cons_of_mem _ hx)) h1
    · exact ih (subWord ρ.1 ρ.2 s)
        (fun x hx => hfacts x (List.mem_cons_of_mem _ hx))
        (fun x hx y hy => hcross x (List.mem_cons_of_mem _ hx) y
          (List.mem_cons_of_mem _ hy))
        pr hmem'

/-- Applying rules none of which matches leaves the text unchanged. -/
theorem applyRules_id : ∀ (rs : List (Str × Str)) (t : Str),
    (∀ pr ∈ rs, hasMatch pr.1 none t = false) → applyRules rs t = t := by
  intro rs
  induction rs with
  | nil => intro t _; rfl
  | cons ρ rs ih =>
    intro t hno
    have h1 : subWord ρ.1 ρ.2 t = t :=
      subAux_id ρ.1 ρ.2 t none (hno ρ (List.mem_cons_self _ _))
    show applyRules rs (subWord ρ.1 ρ.2 t) = t
    rw [h1]
    exact ih t (fun x hx => hno x (List.mem_cons_of_mem _ hx))

/-- **C7.** `sanitize_text` is idempotent: re-sanitizing already sanitized text
changes nothing, for every input string; moreover no replacement string of the
table is itself matched by any rule of the table. -/
theorem C7_sanitize_idempotent (s : Str) :
    sanitize_text (sanitize_text s) = sanitize_text s ∧
    ∀ pr ∈ rules, ∀ qr ∈ rules, hasMatch pr.1 none qr.2 = false := by
  have hfacts : ∀ pr ∈ rules, pr.1 ≠ [] ∧ pr.1.all isWordCp = true := by decide
  have hcross : ∀ pr ∈ rules, ∀ qr ∈ rules, ∀ tok ∈ tokens qr.2,
      ¬ lowerEq tok pr.1 := by decide
  refine ⟨?_, by decide⟩
  unfold sanitize_text
  by_cases hs : s = []
  · simp [hs, applyRules, subWord, subAux]
  · rw [if_neg hs]
    by_cases ht : applyRules rules s = []
    · rw [if_pos ht]
    · rw [if_neg ht]
      exact applyRules_id rules (applyRules rules s)
        (applyRules_no_match rules s hfacts hcross)

/-- Witness for C7 at a concrete headline and a concrete pair of rules. -/
theorem C7_sanitize_idempotent_witness :
    sanitize_text (sanitize_text (str "Dhaka flood kills 12, Gaza ceasefire talks continue")) =
      sanitize_text (str "Dhaka flood kills 12, Gaza ceasefire talks continue") ∧
    hasMatch (str "kill") none (str "Ga*za") = false :=
  ⟨(C7_sanitize_idempotent (str "Dhaka flood kills 12, Gaza ceasefire talks continue")).1,
   (C7_sanitize_idempotent (str "x")).2 (str "kill", str "Ki*ll") (by decide)
     (str "gaza", str "Ga*za") (by decide)⟩

/-- `\bpat\b` cannot fire when the text starts with a non-word character. -/
theorem fires_head_nonword (pat : Str) (hw : pat.all isWordCp = true)
    (prev : Option Nat) (c : Nat) (rest : Str) (hc : isWordCp c = false) :
    fires pat prev (c :: rest) = false := by
  cases pat with
  | nil => simp [fires]
  | cons p0 pt =>
    by_contra hcon
    simp only [Bool.not_eq_false, fires, Bool.and_eq_true] at hcon
    obtain ⟨-, hci⟩ := hcon
    simp only [ciMatch, Bool.and_eq_true, decide_eq_true_eq] at hci
    obtain ⟨⟨hlen, hlow⟩, -⟩ := hci
    rw [List.length_cons, List.take_succ_cons] at hlow
    simp only [lowerStr, List.map_cons, List.cons.injEq] at hlow
    have : isWordCp c = true := wordCp_transfer hlow.1 (by
      simp only [List.all_cons, Bool.and_eq_true] at hw; exact hw.1)
    rw [this] at hc
    exact Bool.noConfusion hc

/-- A clean-boundary case variant of the word at the scan position is
replaced, and scanning continues after it. -/
theorem subAux_mask (pat rep : Str) (hp : pat ≠ []) (v rest : Str)
    (prev : Option Nat) (hv : lowerEq v pat) (hprev : bOk prev = true)
    (hrest : boundaryAfter rest = true) :
    ∃ p', subAux pat rep prev (v ++ rest) = rep ++ subAux pat rep p' rest := by
  have hlen : v.length = pat.length := lowerEq_length hv
  have hvne : v ≠ [] := by
    intro he
    rw [he] at hlen
    exact hp (List.length_eq_zero.mp hlen.symm)
  obtain ⟨x, v', rfl⟩ := List.exists_cons_of_ne_nil hvne
  have htake : ((x :: v') ++ rest).take pat.length = x :: v' := by
    rw [← hlen]; exact take_len_append _ _
  have hdrop : ((x :: v') ++ rest).drop pat.length = rest := by
    rw [← hlen]; exact drop_len_append _ _
  have hfire : fires pat prev ((x :: v') ++ rest) = true := by
    simp only [fires, Bool.and_eq_true]
    refine ⟨⟨by simp [hp], hprev⟩, ?_⟩
    simp only [ciMatch, Bool.and_eq_true, decide_eq_true_eq]
    refine ⟨⟨?_, ?_⟩, ?_⟩
    · rw [List.length_append, ← hlen]; omega
    · rw [htake]; exact hv
    · rw [hdrop]; exact hrest
  refine ⟨some ((((x :: v') ++ rest).take pat.length).getLastD x), ?_⟩
  rw [List.cons_append, subAux, if_pos (by rw [← List.cons_append]; exact hfire)]
  rw [← List.cons_append, hdrop]

/-- **C6.** Each rule of the table masks its word at clean word boundaries
regardless of letter case (alone, and at every such occurrence), and never
rewrites an occurrence that sits inside a longer word-character token: if every
case-variant occurrence of the word in `s` touches a word character on the
left or on the right, the pass leaves `s` unchanged. -/
theorem C6_sanitize_word_boundary :
    ∀ pr ∈ rules,
      (∀ v : Str, lowerEq v pr.1 → subWord pr.1 pr.2 v = pr.2) ∧
      (∀ v₁ v₂ : Str, lowerEq v₁ pr.1 → lowerEq v₂ pr.1 →
        subWord pr.1 pr.2 (v₁ ++ 32 :: v₂) = pr.2 ++ 32 :: pr.2) ∧
      (∀ s : Str,
        (∀ a v b : Str, s = a ++ v ++ b → lowerEq v pr.1 →
          (∃ c, a.getLast? = some c ∧ isWordCp c = true) ∨
          (∃ c, b.head? = some c ∧ isWordCp c = true)) →
        subWord pr.1 pr.2 s = s) := by
  have hfacts : ∀ pr ∈ rules, pr.1 ≠ [] ∧ pr.1.all isWordCp = true := by decide
  intro pr hmem
  obtain ⟨hp, hw⟩ := hfacts pr hmem
  refine ⟨?_, ?_, ?_⟩
  · intro v hv
    obtain ⟨p', hmask⟩ := subAux_mask pr.1 pr.2 hp v [] none hv rfl rfl
    rw [subWord, show v = v ++ [] from (List.append_nil v).symm, hmask]
    simp [subAux]
  · intro v₁ v₂ hv₁ hv₂
    obtain ⟨p₁, hmask₁⟩ := subAux_mask pr.1 pr.2 hp v₁ (32 :: v₂) none hv₁ rfl
      (by simp [boundaryAfter, isWordCp])
    rw [subWord, hmask₁]
    rw [show subAux pr.1 pr.2 p₁ (32 :: v₂) = 32 :: subAux pr.1 pr.2 (some 32) v₂
      from by rw [subAux, if_neg (by
        rw [fires_head_nonword pr.1 hw p₁ 32 v₂ (by decide)]
        exact Bool.noConfusion)]]
    obtain ⟨p₂, hmask₂⟩ := subAux_mask pr.1 pr.2 hp v₂ [] (some 32) hv₂
      (by simp [bOk, isWordCp]) rfl
    rw [show v₂ = v₂ ++ [] from (List.append_nil v₂).symm, hmask₂]
    simp [subAux]
  · intro s hflank
    apply subAux_id
    by_contra h
    rw [Bool.not_eq_false] at h
    obtain ⟨tok, htok, hle⟩ := hasMatch_token pr.1 hp hw s none [] (fun _ => rfl) h
    obtain ⟨-, -, a, b, heq, hbefore, hafter⟩ := token_decomp s [] rfl tok htok
    simp only [List.reverse_nil, List.nil_append] at heq
    rcases hflank a tok b heq hle with ⟨c, hlast, hcw⟩ | ⟨c, hhead, hcw⟩
    · rcases hbefore with rfl | ⟨c', hlast', hcw'⟩
      · simp at hlast
      · rw [hlast'] at hlast
        cases hlast
        rw [hcw] at hcw'
        exact Bool.noConfusion hcw'
    · cases b with
      | nil => simp at hhead
      | cons b0 b' =>
        simp only [List.head?_cons, Option.some.injEq] at hhead
        subst hhead
        simp only [boundaryAfter, Bool.not_eq_true'] at hafter
        rw [hcw] at hafter
        exact Bool.noConfusion hafter

/-- Witness for C6 at the first rule: upper-case variants are masked, both
standalone and as multiple occurrences. -/
theorem C6_sanitize_word_boundary_witness :
    subWord (str "kill") (str "Ki*ll") (str "KILL") = str "Ki*ll" ∧
    subWord (str "kill") (str "Ki*ll") (str "Kill kiLL") = str "Ki*ll Ki*ll" := by
  have h := C6_sanitize_word_boundary (str "kill", str "Ki*ll") (by decide)
  constructor
  · exact h.1 (str "KILL") (by decide)
  · have := h.2.1 (str "Kill") (str "kiLL") (by decide) (by decide)
    simpa using this

/-!
## Card Compositor: title word-wrap
(`create_professional_news_card`, bot.v3.py lines 538-576)

The wrap operates on `title.split()` (whitespace-separated words), greedily
filling at most 3 lines against a pixel-width metric `w` (the
`draw.textbbox(...)` width); an overlong single word is hard-cut character by
character, and leftover words cause the last line to be ellipsized.
-/

/-- Python `str.split()`: split on whitespace runs, no empty tokens. -/
def splitWsAux : Str → Str → List Str
  | acc, [] => if acc = [] then [] else [acc.reverse]
  | acc, c :: rest =>
    if isWsCp c then
      (if acc = [] then splitWsAux [] rest else acc.reverse :: splitWsAux [] rest)
    else splitWsAux (c :: acc) rest

def splitWs (s : Str) : List Str := splitWsAux [] s

/-- Python `(current_line + " " + word).strip()` for whitespace-free tokens:
the empty current line yields the word itself, otherwise a space is put
between. -/
def appendWord (cur word : Str) : Str := if cur = [] then word else cur ++ 32 :: word

/-- Join words as the wrap loop accumulates them. -/
def joinWords (ws : List Str) : Str := ws.foldl appendWord []

/-- The `…` (U+2026) appended by the wrap when words are left over. -/
def ell : Str := [8230]

/-- The hard-cut loop: `while hard and width(hard) > max: hard = hard[:-1]`. -/
def hardTrim (w : Str → Nat) (maxW : Nat) : Str → Str
  | [] => []
  | c :: rest =>
    if w (c :: rest) ≤ maxW then c :: rest
    else hardTrim w maxW (c :: rest).dropLast
termination_by word => word.length
decreasing_by simp [List.length_dropLast]

/-- The ellipsizing loop on the last line. -/
def ellipsize (w : Str → Nat) (maxW : Nat) (last : Str) : Str :=
  if w (last ++ ell) ≤ maxW ∨ last = [] then
    (if last = [] then ell else last ++ ell)
  else ellipsize w maxW last.dropLast
termination_by last.length
decreasing_by
  rename_i h
  rw [not_or] at h
  have := List.length_pos.mpr h.2
  simp only [List.length_dropLast]
  omega

/-- The wrapping `while` loop (bot.v3.py lines 546-565).  Returns the filled
lines, the current line and the unconsumed words at loop exit. -/
def wrapLoop (w : Str → Nat) (maxW maxLines : Nat) :
    List Str → Str → List Str → List Str × Str × List Str
  | [], cur, lines => (lines, cur, [])
  | word :: rest, cur, lines =>
    if lines.length < maxLines then
      if w (appendWord cur word) ≤ maxW then
        wrapLoop w maxW maxLines rest (appendWord cur word) lines
      else if cur ≠ [] then
        wrapLoop w maxW maxLines (word :: rest) [] (lines ++ [cur])
      else
        wrapLoop w maxW maxLines rest []
          (lines ++ [if hardTrim w maxW word = [] then word.take 1
                     else hardTrim w maxW word])
    else (lines, cur, word :: rest)
termination_by ws cur _ => 2 * ws.length + (if cur = [] then 0 else 1)
decreasing_by
  all_goals simp only [List.length_cons]
  all_goals split_ifs <;> omega

/-- The loop state after running the wrap on a title (max 3 lines). -/
def wrapState (w : Str → Nat) (maxW : Nat) (title : Str) :
    List Str × Str × List Str :=
  wrapLoop w maxW 3 (splitWs title) [] []

/-- `lines[-1] = f(lines[-1])`, a no-op on the empty list (matching the
`and lines` guard in the source). -/
def mapLast (f : Str → Str) : List Str → List Str
  | [] => []
  | [x] => [f x]
  | x :: y :: xs => x :: mapLast f (y :: xs)

/-- The complete title-wrap of `create_professional_news_card`: run the loop,
flush a leftover current line if fewer than 3 lines, and ellipsize the last
line when words remain unconsumed. -/
def wrapTitleLines (w : Str → Nat) (maxW : Nat) (title : Str) : List Str :=
  let st := wrapState w maxW title
  let lines := if st.2.1 ≠ [] ∧ st.1.length < 3 then st.1 ++ [st.2.1] else st.1
  if st.2.2 ≠ [] then mapLast (ellipsize w maxW) lines else lines

theorem wrapLoop_nil (w : Str → Nat) (maxW maxLines : Nat) (cur : Str)
    (lines : List Str) : wrapLoop w maxW maxLines [] cur lines = (lines, cur, []) := by
  rw [wrapLoop]

theorem wrapLoop_exit (w : Str → Nat) (maxW maxLines : Nat) (word : Str)
    (rest : List Str) (cur : Str) (lines : List Str)
    (h : ¬ lines.length < maxLines) :
    wrapLoop w maxW maxLines (word :: rest) cur lines = (lines, cur, word :: rest) := by
  rw [wrapLoop, if_neg h]

theorem wrapLoop_fit (w : Str → Nat) (maxW maxLines : Nat) (word : Str)
    (rest : List Str) (cur : Str) (lines : List Str)
    (h1 : lines.length < maxLines) (h2 : w (appendWord cur word) ≤ maxW) :
    wrapLoop w maxW maxLines (word :: rest) cur lines =
      wrapLoop w maxW maxLines rest (appendWord cur word) lines := by
  rw [wrapLoop, if_pos h1, if_pos h2]

theorem wrapLoop_flush (w : Str → Nat) (maxW maxLines : Nat) (word : Str)
    (rest : List Str) (cur : Str) (lines : List Str)
    (h1 : lines.length < maxLines) (h2 : ¬ w (appendWord cur word) ≤ maxW)
    (h3 : cur ≠ []) :
    wrapLoop w maxW maxLines (word :: rest) cur lines =
      wrapLoop w maxW maxLines (word :: rest) [] (lines ++ [cur]) := by
  rw [wrapLoop, if_pos h1, if_neg h2, if_pos h3]

theorem wrapLoop_hard (w : Str → Nat) (maxW maxLines : Nat) (word : Str)
    (rest : List Str) (lines : List Str)
    (h1 : lines.length < maxLines) (h2 : ¬ w (appendWord [] word) ≤ maxW) :
    wrapLoop w maxW maxLines (word :: rest) [] lines =
      wrapLoop w maxW maxLines rest []
        (lines ++ [if hardTrim w maxW word = [] then word.take 1
                   else hardTrim w maxW word]) := by
  rw [wrapLoop, if_pos h1, if_neg h2, if_neg (by simp)]

/-- The loop never holds more than `maxLines` lines. -/
theorem wrapLoop_len (w : Str → Nat) (maxW maxLines : Nat) :
    ∀ (ws : List Str) (cur : Str) (lines : List Str),
      lines.length ≤ maxLines →
      ((wrapLoop w maxW maxLines ws cur lines).1).length ≤ maxLines := by
  intro ws cur lines
  induction ws, cur, lines using wrapLoop.induct w maxW maxLines with
  | case1 cur lines =>
    intro h
    rw [wrapLoop_nil]
    exact h
  | case2 word rest cur lines h1 h2 ih =>
    intro h
    rw [wrapLoop_fit w maxW maxLines word rest cur lines h1 h2]
    exact ih h
  | case3 word rest cur lines h1 h2 h3 ih =>
    intro _
    rw [wrapLoop_flush w maxW maxLines word rest cur lines h1 h2 h3]
    exact ih (by simp; omega)
  | case4 word rest cur lines h1 h2 h3 ih =>
    intro _
    have hcur : cur = [] := by simpa using h3
    subst hcur
    rw [wrapLoop_hard w maxW maxLines word rest lines h1 h2]
    simp only [if_neg, if_pos] at ih
    exact ih (by simp; omega)
  | case5 word rest cur lines h1 =>
    intro h
    rw [wrapLoop_exit w maxW maxLines word rest cur lines h1]
    exact h

/-- If every accumulated prefix fits, the loop consumes everything into the
current line and fills no line at all. -/
theorem wrapLoop_allfit (w : Str → Nat) (maxW maxLines : Nat) :
    ∀ (ws : List Str) (cur : Str) (lines : List Str),
      lines.length < maxLines →
      (∀ i, i ≤ ws.length → w (List.foldl appendWord cur (ws.take i)) ≤ maxW) →
      wrapLoop w maxW maxLines ws cur lines =
        (lines, List.foldl appendWord cur ws, []) := by
  intro ws
  induction ws with
  | nil => intro cur lines _ _; exact wrapLoop_nil w maxW maxLines cur lines
  | cons word rest ih =>
    intro cur lines hlt hfit
    have h1 : w (appendWord cur word) ≤ maxW := by
      have := hfit 1 (by simp)
      simpa using this
    rw [wrapLoop_fit w maxW maxLines word rest cur lines hlt h1]
    have := ih (appendWord cur word) lines hlt (fun i hi => by
      have := hfit (i + 1) (by simp only [List.length_cons]; omega)
      simpa [List.take_succ_cons] using this)
    rw [this, List.foldl_cons]

/-- If words are left over, the loop exited with all `maxLines` lines full. -/
theorem wrapLoop_rem (w : Str → Nat) (maxW maxLines : Nat) :
    ∀ (ws : List Str) (cur : Str) (lines : List Str),
      lines.length ≤ maxLines →
      (wrapLoop w maxW maxLines ws cur lines).2.2 ≠ [] →
      ((wrapLoop w maxW maxLines ws cur lines).1).length = maxLines := by
  intro ws cur lines
  induction ws, cur, lines using wrapLoop.induct w maxW maxLines with
  | case1 cur lines =>
    intro _ hr
    rw [wrapLoop_nil] at hr ⊢
    exact absurd rfl hr
  | case2 word rest cur lines h1 h2 ih =>
    intro h hr
    rw [wrapLoop_fit w maxW maxLines word rest cur lines h1 h2] at hr ⊢
    exact ih h hr
  | case3 word rest cur lines h1 h2 h3 ih =>
    intro _ hr
    rw [wrapLoop_flush w maxW maxLines word rest cur lines h1 h2 h3] at hr ⊢
    exact ih (by simp; omega) hr
  | case4 word rest cur lines h1 h2 h3 ih =>
    intro _ hr
    have hcur : cur = [] := by simpa using h3
    subst hcur
    rw [wrapLoop_hard w maxW maxLines word rest lines h1 h2] at hr ⊢
    simp only [if_neg, if_pos] at ih
    exact ih (by simp; omega) hr
  | case5 word rest cur lines h1 =>
    intro h _
    rw [wrapLoop_exit w maxW maxLines word rest cur lines h1]
    simp only []
    omega

/-- The hard cut yields a nonempty fitting line as soon as some nonempty
front part of the word fits. -/
theorem hardTrim_fits (w : Str → Nat) (maxW : Nat) :
    ∀ word : Str,
      (∃ n, 0 < n ∧ n ≤ word.length ∧ w (word.take n) ≤ maxW) →
      hardTrim w maxW word ≠ [] ∧ w (hardTrim w maxW word) ≤ maxW := by
  intro word
  induction word using hardTrim.induct w maxW with
  | case1 =>
    rintro ⟨n, hn0, hnle, -⟩
    simp only [List.length_nil] at hnle
    omega
  | case2 c t hfit =>
    intro _
    rw [show hardTrim w maxW (c :: t) = c :: t from by rw [hardTrim, if_pos hfit]]
    exact ⟨by simp, hfit⟩
  | case3 c t hnofit ih =>
    rintro ⟨n, hn0, hnle, hnfit⟩
    rw [show hardTrim w maxW (c :: t) = hardTrim w maxW (c :: t).dropLast from by
      rw [hardTrim, if_neg hnofit]]
    apply ih
    have hlt : n < (c :: t).length := by
      rcases Nat.lt_or_ge n (c :: t).length with h | h
      · exact h
      · exfalso
        have heq : n = (c :: t).length := le_antisymm hnle h
        rw [heq, List.take_length] at hnfit
        exact hnofit hnfit
    simp only [List.length_cons] at hlt
    refine ⟨n, hn0, ?_, ?_⟩
    · simp only [List.length_dropLast, List.length_cons]
      omega
    · have heq : (c :: t).dropLast.take n = (c :: t).take n := by
        rw [List.dropLast_eq_take, List.take_take]
        congr 1
        simp only [List.length_cons]
        omega
      rw [heq]
      exact hnfit

/-- The ellipsizing loop always ends in the marker, and fits whenever the
marker alone fits. -/
theorem ellipsize_spec (w : Str → Nat) (maxW : Nat) (hell : w ell ≤ maxW) :
    ∀ s : Str, (∃ t, ellipsize w maxW s = t ++ ell) ∧
      w (ellipsize w maxW s) ≤ maxW := by
  intro s
  induction s using ellipsize.induct w maxW with
  | case1 _ =>
    rw [show ellipsize w maxW [] = ell from by
      rw [ellipsize, if_pos (Or.inr rfl), if_pos rfl]]
    exact ⟨⟨[], rfl⟩, hell⟩
  | case2 x hcond hne =>
    rw [show ellipsize w maxW x = x ++ ell from by
      rw [ellipsize, if_pos hcond, if_neg hne]]
    refine ⟨⟨x, rfl⟩, ?_⟩
    rcases hcond with h | h
    · exact h
    · exact absurd h hne
  | case3 x hcond ih =>
    rw [show ellipsize w maxW x = ellipsize w maxW x.dropLast from by
      rw [ellipsize, if_neg hcond]]
    exact ih

theorem mapLast_length (f : Str → Str) : ∀ l : List Str,
    (mapLast f l).length = l.length := by
  intro l
  induction l using mapLast.induct f with
  | case1 => rfl
  | case2 x => rfl
  | case3 x y xs ih => simp only [mapLast, List.length_cons, ih]

theorem mapLast_spec (f : Str → Str) : ∀ l : List Str, l ≠ [] →
    ∃ pre x, l = pre ++ [x] ∧ mapLast f l = pre ++ [f x] := by
  intro l
  induction l using mapLast.induct f with
  | case1 => intro h; exact absurd rfl h
  | case2 x => intro _; exact ⟨[], x, rfl, rfl⟩
  | case3 x y xs ih =>
    intro _
    obtain ⟨pre, z, heq, hmap⟩ := ih (by simp)
    exact ⟨x :: pre, z, by rw [List.cons_append, ← heq],
      by rw [show mapLast f (x :: y :: xs) = x :: mapLast f (y :: xs) from rfl,
        hmap, List.cons_append]⟩

/-- `str.split()` produces no empty tokens. -/
theorem splitWs_tokens_ne : ∀ (s acc : Str), ∀ t ∈ splitWsAux acc s, t ≠ [] := by
  intro s
  induction s with
  | nil =>
    intro acc t hmem
    by_cases hacc : acc = []
    · simp [splitWsAux, hacc] at hmem
    · simp only [splitWsAux, if_neg hacc, List.mem_singleton] at hmem
      subst hmem
      simpa using hacc
  | cons c rest ih =>
    intro acc t hmem
    by_cases hc : isWsCp c = true
    · by_cases hacc : acc = []
      · rw [show splitWsAux acc (c :: rest) = splitWsAux [] rest from by
          simp [splitWsAux, hc, hacc]] at hmem
        exact ih [] t hmem
      · rw [show splitWsAux acc (c :: rest) = acc.reverse :: splitWsAux [] rest
          from by simp [splitWsAux, hc, hacc]] at hmem
        rcases List.mem_cons.mp hmem with rfl | hmem'
        · simpa using hacc
        · exact ih [] t hmem'
    · rw [show splitWsAux acc (c :: rest) = splitWsAux (c :: acc) rest from by
        simp [splitWsAux, hc]] at hmem
      exact ih (c :: acc) t hmem

theorem foldl_appendWord_ne : ∀ (xs : List Str) (cur : Str), cur ≠ [] →
    List.foldl appendWord cur xs ≠ [] := by
  intro xs
  induction xs with
  | nil => intro cur h; exact h
  | cons x xs ih =>
    intro cur h
    rw [List.foldl_cons]
    exact ih _ (by simp [appendWord, if_neg h])

/-- Joining a nonempty list of nonempty words is nonempty. -/
theorem joinWords_ne : ∀ ws : List Str, ws ≠ [] → (∀ t ∈ ws, t ≠ []) →
    joinWords ws ≠ [] := by
  intro ws hne htok
  obtain ⟨x, xs, rfl⟩ := List.exists_cons_of_ne_nil hne
  rw [joinWords, List.foldl_cons,
    show appendWord [] x = x from if_pos rfl]
  exact foldl_appendWord_ne xs x (htok x (List.mem_cons_self _ _))

theorem wrapTitleLines_state (w : Str → Nat) (maxW : Nat) (title : Str) :
    wrapTitleLines w maxW title =
      (if (wrapState w maxW title).2.2 ≠ [] then
        mapLast (ellipsize w maxW)
          (if (wrapState w maxW title).2.1 ≠ [] ∧ (wrapState w maxW title).1.length < 3
           then (wrapState w maxW title).1 ++ [(wrapState w maxW title).2.1]
           else (wrapState w maxW title).1)
       else
        (if (wrapState w maxW title).2.1 ≠ [] ∧ (wrapState w maxW title).1.length < 3
         then (wrapState w maxW title).1 ++ [(wrapState w maxW title).2.1]
         else (wrapState w maxW title).1)) := rfl

/-- **C1 (amended).** For every title and every width metric the wrap yields at
most 3 lines.  A title with at least one word, all of whose accumulated
prefixes fit the column, yields exactly the one joined line.  When words
remain unconsumed after the loop (and the ellipsis marker itself fits the
column), exactly 3 lines are produced and the final line ends in the
ellipsis marker and fits.  A single token
wider than the column is hard-truncated to a nonempty line that fits, provided
some nonempty front part of it fits. -/
theorem C1_wrap_amended (w : Str → Nat) (maxW : Nat) (title : Str) :
    (wrapTitleLines w maxW title).length ≤ 3 ∧
    (splitWs title ≠ [] →
      (∀ i, i ≤ (splitWs title).length →
        w (joinWords ((splitWs title).take i)) ≤ maxW) →
      wrapTitleLines w maxW title = [joinWords (splitWs title)]) ∧
    (w ell ≤ maxW → (wrapState w maxW title).2.2 ≠ [] →
      (wrapTitleLines w maxW title).length = 3 ∧
      ∃ pre lastLine, wrapTitleLines w maxW title = pre ++ [lastLine] ∧
        (∃ t, lastLine = t ++ ell) ∧ w lastLine ≤ maxW) ∧
    (∀ word, splitWs title = [word] → maxW < w word →
      (∃ n, 0 < n ∧ n ≤ word.length ∧ w (word.take n) ≤ maxW) →
      wrapTitleLines w maxW title = [hardTrim w maxW word] ∧
        hardTrim w maxW word ≠ [] ∧ w (hardTrim w maxW word) ≤ maxW) := by
  have hlen0 : ((wrapState w maxW title).1).length ≤ 3 :=
    wrapLoop_len w maxW 3 (splitWs title) [] [] (by simp)
  refine ⟨?_, ?_, ?_, ?_⟩
  · rw [wrapTitleLines_state]
    split_ifs with h1 h2 h3 <;>
      (try simp only [mapLast_length, List.length_append, List.length_cons,
        List.length_nil]) <;>
      omega
  · intro hne hfit
    have hall := wrapLoop_allfit w maxW 3 (splitWs title) [] [] (by simp) hfit
    have hjoin : joinWords (splitWs title) ≠ [] :=
      joinWords_ne _ hne (fun t ht => splitWs_tokens_ne title [] t ht)
    rw [wrapTitleLines_state,
      show wrapState w maxW title = ([], joinWords (splitWs title), []) from hall]
    simp [hjoin]
  · intro hell hrem
    have hlen3 : ((wrapState w maxW title).1).length = 3 :=
      wrapLoop_rem w maxW 3 (splitWs title) [] [] (by simp) hrem
    rw [wrapTitleLines_state, if_pos hrem,
      if_neg (by rw [hlen3]; simp)]
    have hlne : (wrapState w maxW title).1 ≠ [] := by
      intro h
      rw [h] at hlen3
      simp at hlen3
    refine ⟨by rw [mapLast_length]; exact hlen3, ?_⟩
    obtain ⟨pre, x, -, hmap⟩ := mapLast_spec (ellipsize w maxW) _ hlne
    rw [hmap]
    obtain ⟨⟨t, ht⟩, hfit⟩ := ellipsize_spec w maxW hell x
    exact ⟨pre, ellipsize w maxW x, rfl, ⟨t, ht⟩, hfit⟩
  · intro word hsplit hbig hpre
    obtain ⟨htne, htfit⟩ := hardTrim_fits w maxW word hpre
    have hstate : wrapState w maxW title = ([hardTrim w maxW word], [], []) := by
      rw [wrapState, hsplit,
        wrapLoop_hard w maxW 3 word [] [] (by simp)
          (by rw [show appendWord [] word = word from if_pos rfl]; omega),
        wrapLoop_nil]
      rw [if_neg htne]
      simp
    rw [wrapTitleLines_state, hstate]
    simp
    exact ⟨htne, htfit⟩

/-- Counterexample to C1 as stated: for the empty title every prefix trivially
fits any column, yet the wrap produces zero lines, not exactly one. -/
theorem C1_wrap_counterexample :
    (∀ i, i ≤ (splitWs ([] : Str)).length →
      (fun _ : Str => 0) (joinWords ((splitWs ([] : Str)).take i)) ≤ 10) ∧
    wrapTitleLines (fun _ : Str => 0) 10 [] = [] ∧
    (wrapTitleLines (fun _ : Str => 0) 10 []).length ≠ 1 := by
  have h : wrapTitleLines (fun _ : Str => 0) 10 [] = [] := by
    rw [wrapTitleLines_state,
      show wrapState (fun _ : Str => 0) 10 [] = ([], [], []) from by
        rw [wrapState, show splitWs ([] : Str) = [] from rfl]
        exact wrapLoop_nil _ 10 3 [] []]
    simp
  refine ⟨?_, h, by rw [h]; simp⟩
  intro i hi
  simp

/-- Witness for C1 (amended) at a concrete title and the character-count
metric. -/
theorem C1_wrap_amended_witness :
    splitWs (str "hi there") ≠ [] ∧
    (∀ i, i ≤ (splitWs (str "hi there")).length →
      (fun s : Str => s.length) (joinWords ((splitWs (str "hi there")).take i)) ≤ 20) ∧
    wrapTitleLines (fun s : Str => s.length) 20 (str "hi there") =
      [joinWords (splitWs (str "hi there"))] :=
  ⟨by decide, by decide,
   (C1_wrap_amended (fun s : Str => s.length) 20 (str "hi there")).2.1
     (by decide) (by decide)⟩

/-!
## Image Candidate Resolver and Validator
(`fetch_article_image` / `download_and_validate_image`, bot.v3.py lines 131-330)

The network/rendering world is an explicit environment: `fetch` models
`requests.get` (`none` = exception), `decode` models `PIL.Image.open` on the
fetched bytes (`none` = undecodable), `urljoin` models
`urllib.parse.urljoin`, and `render` models the headless-browser page load
(`none` = Selenium exception).  The parsed article page is plain data.
-/

/-- A parsed JSON value (`json.loads` result). -/
inductive J where
  | str (s : Str)
  | num (n : Int)
  | bool (b : Bool)
  | null
  | list (l : List J)
  | obj (fields : List (Str × J))

/-- The parent element of an `<img>`, as read by the inline stage. -/
structure ImgParent where
  name : Str
  classes : List Str
  href : Option Str

/-- An `<img>`-like element with the attributes the code reads.  `none` means
the attribute is absent; `some []` an empty attribute value. -/
structure ImgTag where
  src : Option Str
  dataSrc : Option Str
  dataOriginal : Option Str
  srcset : Option Str
  classes : List Str
  parent : Option ImgParent

/-- A rendered article page, as the resolver queries it: the four meta-tag
contents in probe order, the JSON-LD blocks (`none` = unparseable block) and
the `<img>` elements in document order. -/
structure Page where
  ogImage : Option Str
  twitterNameImage : Option Str
  twitterPropImage : Option Str
  itempropImage : Option Str
  jsonLd : List (Option J)
  imgs : List ImgTag

/-- An HTTP response of `requests.get`. -/
structure Resp where
  status : Nat
  content : List Nat

/-- Pixel dimensions measured by `PIL.Image.open(...).size`. -/
structure ImgDim where
  width : Nat
  height : Nat

/-- The external world of the resolver. -/
structure Env where
  fetch : Str → Option Resp
  decode : List Nat → Option ImgDim
  urljoin : Str → Str → Str
  render : Str → Option Page

/-- `is_probably_logo` (line 145): empty/absent URLs and URLs containing a
banned keyword (case-insensitively) are logo-like. -/
def bannedKeywords : List Str :=
  [str "logo", str "favicon", str "sprite", str "placeholder",
   str "default", str "avatar"]

def is_probably_logo (u : Str) : Bool :=
  decide (u = []) || bannedKeywords.any (fun k => substr k (lowerStr u))

/-- `make_absolute` (line 136): `None`/empty input yields `None`, otherwise
`urljoin`. -/
def make_absolute (urlj : Str → Str → Str) (base : Str) (m : Option Str) :
    Option Str :=
  match m with
  | none => none
  | some s => if s = [] then none else some (urlj base s)

/-- `download_and_validate_image` (lines 152-168): fetch with status check,
decode, reject images under the 400×250 floor, return the byte buffer. -/
def download_and_validate_image (env : Env) (img_url : Str) : Option (List Nat) :=
  match env.fetch img_url with
  | none => none
  | some resp =>
    if resp.status ≠ 200 then none
    else
      match env.decode resp.content with
      | none => none
      | some d =>
        if d.width < 400 ∨ d.height < 250 then none
        else some resp.content

/-- One meta-tag probe (lines 217-225): requires the element present with a
truthy content, a truthy absolute URL that is not logo-like, then validates. -/
def tryMeta (env : Env) (articleUrl : Str) (content : Option Str) :
    Option (List Nat) :=
  match content with
  | none => none
  | some c =>
    if c = [] then none
    else
      match make_absolute env.urljoin articleUrl (some c) with
      | none => none
      | some urlAbs =>
        if urlAbs ≠ [] ∧ ¬ is_probably_logo urlAbs then
          download_and_validate_image env urlAbs
        else none

/-- The meta-tag stage (lines 210-225): `og:image`, `twitter:image` (name),
`twitter:image` (property), `itemprop=image`, first success wins. -/
def metaStage (env : Env) (articleUrl : Str) (p : Page) : Option (List Nat) :=
  match tryMeta env articleUrl p.ogImage with
  | some b => some b
  | none =>
    match tryMeta env articleUrl p.twitterNameImage with
    | some b => some b
    | none =>
      match tryMeta env articleUrl p.twitterPropImage with
      | some b => some b
      | none => tryMeta env articleUrl p.itempropImage

/-- Python truthiness of a JSON value. -/
def jTruthy : J → Bool
  | .str s => decide (s ≠ [])
  | .num n => decide (n ≠ 0)
  | .bool b => b
  | .null => false
  | .list l => !l.isEmpty
  | .obj f => !f.isEmpty

/-- `dict.get` on a parsed JSON object. -/
def lookupField : List (Str × J) → Str → Option J
  | [], _ => none
  | (k, v) :: rest, key => if k = key then some v else lookupField rest key

/-- Extract the `image` field candidate of one JSON-LD object (lines 239-246):
a string itself, the first element of a nonempty list (whatever it is), or the
`url` field of an object. -/
def jsonUrlCandidate (obj : J) : Option J :=
  match obj with
  | .obj fields =>
    match lookupField fields (str "image") with
    | some (.str s) => some (.str s)
    | some (.list (x :: _)) => some x
    | some (.obj f2) => lookupField f2 (str "url")
    | _ => none
  | _ => none

/-- Outcome of a resolver stage: an image, a fall-through, or an uncaught
exception (which makes the whole resolver return `None`). -/
inductive StageRes where
  | found (b : List Nat)
  | failed
  | crash

/-- Try one JSON-LD object (lines 247-253).  A truthy non-string candidate
crashes: `urljoin` raises `TypeError` (caught inside `make_absolute`, which
returns the value unchanged), after which `is_probably_logo` calls
`.lower()` on a non-string and the exception propagates to the resolver's
outer handler. -/
def tryJsonCandidate (env : Env) (articleUrl : Str) (obj : J) : StageRes :=
  match jsonUrlCandidate obj with
  | none => .failed
  | some jc =>
    if jTruthy jc then
      match jc with
      | .str s =>
        match make_absolute env.urljoin articleUrl (some s) with
        | none => .failed
        | some urlAbs =>
          if urlAbs ≠ [] ∧ ¬ is_probably_logo urlAbs then
            match download_and_validate_image env urlAbs with
            | some b => .found b
            | none => .failed
          else .failed
      | _ => .crash
    else .failed

/-- The candidate objects of one parsed JSON-LD block (lines 233-237): a dict
itself, or the elements of a list. -/
def jsonCandObjs : J → List J
  | .obj f => [.obj f]
  | .list l => l
  | _ => []

def scanObjs (env : Env) (articleUrl : Str) : List J → StageRes
  | [] => .failed
  | o :: os =>
    match tryJsonCandidate env articleUrl o with
    | .found b => .found b
    | .crash => .crash
    | .failed => scanObjs env articleUrl os

/-- The structured-data stage (lines 228-253); unparseable blocks are
skipped. -/
def jsonLdStage (env : Env) (articleUrl : Str) : List (Option J) → StageRes
  | [] => .failed
  | none :: bs => jsonLdStage env articleUrl bs
  | some j :: bs =>
    match scanObjs env articleUrl (jsonCandObjs j) with
    | .found b => .found b
    | .crash => .crash
    | .failed => jsonLdStage env articleUrl bs

/-- Result of the `src` selection for one `<img>` (lines 258-265):
skip (`continue`), crash (`IndexError` on a malformed `srcset`), or a
candidate URL. -/
inductive SelRes where
  | skip
  | crash
  | got (u : Str)
deriving DecidableEq

/-- Python `a or b`. -/
def pyOr (a b : Option Str) : Option Str :=
  match a with
  | some s => if s = [] then b else some s
  | none => b

/-- `srcset.split(",")[0].split()[0]` (line 265); `none` models the
`IndexError` when the part before the first comma is all whitespace. -/
def firstSrcsetUrl (ss : Str) : Option Str :=
  match splitWs (ss.takeWhile (fun c => c != 44)) with
  | [] => none
  | u :: _ => some u

/-- Lines 258-265: `src or data-src or data-original or srcset`, skip when
falsy; then, whenever a `srcset` attribute is present and nonempty, the
candidate is overwritten with the first srcset URL. -/
def selectSrc (img : ImgTag) : SelRes :=
  match pyOr img.src (pyOr img.dataSrc (pyOr img.dataOriginal img.srcset)) with
  | none => .skip
  | some s0 =>
    if s0 = [] then .skip
    else
      match img.srcset with
      | some ss =>
        if ss ≠ [] then
          match firstSrcsetUrl ss with
          | some u => .got u
          | none => .crash
        else .got s0
      | none => .got s0

/-- `" ".join(classes)`. -/
def joinSpace : List Str → Str
  | [] => []
  | [c] => c
  | c :: rest => c ++ 32 :: joinSpace rest

def contentKws : List Str :=
  [str "article", str "entry", str "content", str "post", str "news"]

def promKws : List Str :=
  [str "featured", str "main", str "hero", str "lead"]

/-- Candidate scoring (lines 269-275): +2 when a content-area keyword occurs
as a substring of the lower-cased space-joined parent class list, +3 when the
image's own class list contains a prominence keyword as an exact element
(`k in (img.get("class") or [])`). -/
def scoreImg (img : ImgTag) : Nat :=
  (if contentKws.any (fun k => substr k (lowerStr
      (match img.parent with
       | some p => joinSpace p.classes
       | none => []))) then 2 else 0) +
  (if promKws.any (fun k => img.classes.contains k) then 3 else 0)

/-- A scored inline candidate, with its originating element. -/
structure Cand where
  score : Nat
  url : Str
  img : ImgTag

/-- Collect the inline candidates in document order (lines 256-276). -/
def collectCands (env : Env) (articleUrl : Str) : List ImgTag → Option (List Cand)
  | [] => some []
  | img :: rest =>
    match selectSrc img with
    | .crash => none
    | .skip => collectCands env articleUrl rest
    | .got s =>
      match make_absolute env.urljoin articleUrl (some s) with
      | none => collectCands env articleUrl rest
      | some urlAbs =>
        if urlAbs = [] ∨ is_probably_logo urlAbs then
          collectCands env articleUrl rest
        else
          match collectCands env articleUrl rest with
          | none => none
          | some cs => some ({ score := scoreImg img, url := urlAbs, img := img } :: cs)

/-- Insert before the first candidate of not-greater score: together with
`sortDesc` this is the stable descending sort performed by
`img_candidates.sort(key=lambda t: t[0], reverse=True)` (Python `list.sort`
is stable and `reverse=True` keeps the original order among equal keys). -/
def insertDesc (x : Cand) : List Cand → List Cand
  | [] => [x]
  | y :: ys => if y.score > x.score then y :: insertDesc x ys else x :: y :: ys

def sortDesc : List Cand → List Cand
  | [] => []
  | x :: xs => insertDesc x (sortDesc xs)

/-- The `og:image` probe on a followed detail page (lines 296-303). -/
def tryInnerOg (env : Env) (href : Str) (inner : Page) : Option (List Nat) :=
  match inner.ogImage with
  | none => none
  | some c =>
    if c = [] then none
    else
      match make_absolute env.urljoin href (some c) with
      | none => none
      | some cand =>
        if cand ≠ [] ∧ ¬ is_probably_logo cand then
          download_and_validate_image env cand
        else none

/-- The first-`<img>` fallback on a followed detail page (lines 305-312). -/
def tryInnerFirstImg (env : Env) (href : Str) (inner : Page) : Option (List Nat) :=
  match inner.imgs.head? with
  | none => none
  | some fi =>
    match make_absolute env.urljoin href fi.src with
    | none => none
    | some cand =>
      if cand ≠ [] ∧ ¬ is_probably_logo cand then
        download_and_validate_image env cand
      else none

/-- The one-hop link follow when a candidate fails validation
(lines 284-314); any exception on the hop is swallowed (`except: pass`). -/
def followParentLink (env : Env) (articleUrl : Str) (img : ImgTag) :
    Option (List Nat) :=
  match img.parent with
  | none => none
  | some par =>
    if par.name = str "a" then
      match par.href with
      | none => none
      | some h =>
        if h ≠ [] then
          match make_absolute env.urljoin articleUrl (some h) with
          | none => none
          | some href =>
            if href ≠ [] ∧ href ≠ articleUrl then
              match env.render href with
              | none => none
              | some inner =>
                match tryInnerOg env href inner with
                | some b => some b
                | none => tryInnerFirstImg env href inner
            else none
        else none
    else none

/-- Iterate the top candidates (lines 279-314): validate, else follow the
parent link once, else move on. -/
def tryCands (env : Env) (articleUrl : Str) : List Cand → Option (List Nat)
  | [] => none
  | c :: rest =>
    match download_and_validate_image env c.url with
    | some b => some b
    | none =>
      match followParentLink env articleUrl c.img with
      | some b => some b
      | none => tryCands env articleUrl rest

/-- The inline-image stage (lines 256-314): collect, sort, try the top 8. -/
def inlineStage (env : Env) (articleUrl : Str) (imgs : List ImgTag) :
    Option (List Nat) :=
  match collectCands env articleUrl imgs with
  | none => none
  | some cands => tryCands env articleUrl ((sortDesc cands).take 8)

/-- The full resolver on a rendered page, stages in strict priority order;
a crash is caught by the outer handler and yields `None`. -/
def resolveFromPage (env : Env) (articleUrl : Str) (p : Page) :
    Option (List Nat) :=
  match metaStage env articleUrl p with
  | some b => some b
  | none =>
    match jsonLdStage env articleUrl p.jsonLd with
    | .found b => some b
    | .crash => none
    | .failed => inlineStage env articleUrl p.imgs

/-- `fetch_article_image` (line 131): render the article page, then resolve;
any rendering failure yields `None`. -/
def fetch_article_image (env : Env) (articleUrl : Str) : Option (List Nat) :=
  match env.render articleUrl with
  | none => none
  | some p => resolveFromPage env articleUrl p

/-- **C2.** The Validator turns any fetched, decodable image below the 400×250
floor into `None`, returns the byte buffer for any fetched, decodable image at
or above the floor, and its decision is a function of the fetched response and
the decoder only — independent of which resolver stage supplied the URL. -/
theorem C2_validator_floor (env : Env) (u : Str) :
    (∀ r d, env.fetch u = some r → r.status = 200 → env.decode r.content = some d →
      d.width < 400 ∨ d.height < 250 → download_and_validate_image env u = none) ∧
    (∀ r d, env.fetch u = some r → r.status = 200 → env.decode r.content = some d →
      400 ≤ d.width → 250 ≤ d.height →
      download_and_validate_image env u = some r.content) ∧
    (∀ (env' : Env) (u' : Str), env.fetch u = env'.fetch u' →
      env.decode = env'.decode →
      download_and_validate_image env u = download_and_validate_image env' u') := by
  refine ⟨?_, ?_, ?_⟩
  · intro r d hf hs hd hsmall
    unfold download_and_validate_image
    rw [hf]
    dsimp only
    rw [if_neg (by omega), hd]
    dsimp only
    rw [if_pos hsmall]
  · intro r d hf hs hd hw hh
    unfold download_and_validate_image
    rw [hf]
    dsimp only
    rw [if_neg (by omega), hd]
    dsimp only
    rw [if_neg (by omega)]
  · intro env' u' hf hd
    unfold download_and_validate_image
    rw [← hf, ← hd]

/-- A world in which every image fetch succeeds and decodes to 500×300. -/
def envAccept : Env where
  fetch := fun _ => some { status := 200, content := [7, 7] }
  decode := fun _ => some { width := 500, height := 300 }
  urljoin := fun _ s => s
  render := fun _ => none

/-- A world in which every image decodes to 500×200 (below the height floor). -/
def envReject : Env where
  fetch := fun _ => some { status := 200, content := [7, 7] }
  decode := fun _ => some { width := 500, height := 200 }
  urljoin := fun _ s => s
  render := fun _ => none

/-- Witness for C2: a 500×300 image is accepted, a 500×200 image rejected. -/
theorem C2_validator_floor_witness :
    download_and_validate_image envAccept (str "a.jpg") = some [7, 7] ∧
    download_and_validate_image envReject (str "a.jpg") = none :=
  ⟨(C2_validator_floor envAccept (str "a.jpg")).2.1
      { status := 200, content := [7, 7] } { width := 500, height := 300 }
      rfl rfl rfl (by decide) (by decide),
   (C2_validator_floor envReject (str "a.jpg")).1
      { status := 200, content := [7, 7] } { width := 500, height := 200 }
      rfl rfl rfl (by decide)⟩

/-- **C3.** When the meta-tag stage yields a Validator-accepted image, the
resolver returns exactly that image; the result is unchanged under arbitrary
modification of the JSON-LD blocks and inline images of the page (the later
stages are never consulted, whatever an inline candidate would score); and the
resolver entry point returns it for the rendered page. -/
theorem C3_meta_priority (env : Env) (articleUrl : Str) (p : Page) (b : List Nat)
    (h : metaStage env articleUrl p = some b) :
    resolveFromPage env articleUrl p = some b ∧
    (∀ p' : Page, p'.ogImage = p.ogImage →
      p'.twitterNameImage = p.twitterNameImage →
      p'.twitterPropImage = p.twitterPropImage →
      p'.itempropImage = p.itempropImage →
      resolveFromPage env articleUrl p' = some b) ∧
    (env.render articleUrl = some p → fetch_article_image env articleUrl = some b) := by
  have hmeta : ∀ p' : Page, p'.ogImage = p.ogImage →
      p'.twitterNameImage = p.twitterNameImage →
      p'.twitterPropImage = p.twitterPropImage →
      p'.itempropImage = p.itempropImage →
      metaStage env articleUrl p' = some b := by
    intro p' h1 h2 h3 h4
    unfold metaStage at h ⊢
    rw [h1, h2, h3, h4]
    exact h
  refine ⟨?_, ?_, ?_⟩
  · unfold resolveFromPage
    rw [h]
  · intro p' h1 h2 h3 h4
    unfold resolveFromPage
    rw [hmeta p' h1 h2 h3 h4]
  · intro hr
    unfold fetch_article_image
    rw [hr]
    dsimp only
    unfold resolveFromPage
    rw [h]

/-- A page whose `og:image` validates while an inline candidate scores 3. -/
def c3img : ImgTag :=
  { src := some (str "inline.jpg"), dataSrc := none, dataOriginal := none,
    srcset := none, classes := [str "featured"], parent := none }

def c3page : Page :=
  { ogImage := some (str "og.jpg"), twitterNameImage := none,
    twitterPropImage := none, itempropImage := none, jsonLd := [],
    imgs := [c3img] }

def c3env : Env where
  fetch := fun _ => some { status := 200, content := [9] }
  decode := fun _ => some { width := 800, height := 600 }
  urljoin := fun _ s => s
  render := fun _ => none

/-- Witness for C3: the meta image wins on a concrete page that also carries
a prominence-scored inline image. -/
theorem C3_meta_priority_witness :
    metaStage c3env (str "u") c3page = some [9] ∧
    scoreImg c3img = 3 ∧
    resolveFromPage c3env (str "u") c3page = some [9] :=
  have h : metaStage c3env (str "u") c3page = some [9] := by decide
  ⟨h, by decide, (C3_meta_priority c3env (str "u") c3page [9] h).1⟩

theorem pyOr_chain_ne (a : Option Str) {rest : Option Str}
    (h : ∃ s0, rest = some s0 ∧ s0 ≠ []) :
    ∃ s0, pyOr a rest = some s0 ∧ s0 ≠ [] := by
  obtain ⟨s0, rfl, hs0⟩ := h
  cases a with
  | none => exact ⟨s0, rfl, hs0⟩
  | some t =>
    by_cases ht : t = []
    · exact ⟨s0, by simp [pyOr, ht], hs0⟩
    · exact ⟨t, by simp [pyOr, ht], ht⟩

/-- **C4 (amended).** When the element has no (or an empty) `srcset`
attribute, the candidate is the first truthy of `src`, `data-src`,
`data-original` (skipping the element when all are falsy).  But whenever a
nonempty `srcset` attribute is present, the candidate is always the first
URL of the `srcset` — even when a `src` attribute is present — and a
malformed `srcset` whose first comma-part is all whitespace raises. -/
theorem C4_src_priority_amended (img : ImgTag) :
    ((img.srcset = none ∨ img.srcset = some []) →
      selectSrc img =
        (match pyOr img.src (pyOr img.dataSrc (pyOr img.dataOriginal img.srcset)) with
         | none => SelRes.skip
         | some s => if s = [] then SelRes.skip else SelRes.got s)) ∧
    (∀ ss u, img.srcset = some ss → ss ≠ [] → firstSrcsetUrl ss = some u →
      selectSrc img = SelRes.got u) ∧
    (∀ ss, img.srcset = some ss → ss ≠ [] → firstSrcsetUrl ss = none →
      selectSrc img = SelRes.crash) := by
  refine ⟨?_, ?_, ?_⟩
  · intro hcase
    unfold selectSrc
    rcases hcase with h | h <;> rw [h] <;>
      cases hchain : pyOr img.src (pyOr img.dataSrc (pyOr img.dataOriginal img.srcset)) with
      | none => rw [h] at hchain; rw [hchain]
      | some s0 =>
        rw [h] at hchain
        rw [hchain]
        by_cases hs : s0 = [] <;> simp [hs]
  · intro ss u hss hne hfirst
    unfold selectSrc
    obtain ⟨s0, hchain, hs0⟩ := pyOr_chain_ne img.src
      (pyOr_chain_ne img.dataSrc (pyOr_chain_ne img.dataOriginal
        ⟨ss, hss, hne⟩))
    rw [hchain]
    dsimp only
    rw [if_neg hs0, hss]
    dsimp only
    rw [if_pos hne, hfirst]
  · intro ss hss hne hfirst
    unfold selectSrc
    obtain ⟨s0, hchain, hs0⟩ := pyOr_chain_ne img.src
      (pyOr_chain_ne img.dataSrc (pyOr_chain_ne img.dataOriginal
        ⟨ss, hss, hne⟩))
    rw [hchain]
    dsimp only
    rw [if_neg hs0, hss]
    dsimp only
    rw [if_pos hne, hfirst]

/-- An element carrying both `src` and a nonempty `srcset`. -/
def c4img : ImgTag :=
  { src := some (str "direct.jpg"), dataSrc := none, dataOriginal := none,
    srcset := some (str "set1.jpg 1x, set2.jpg 2x"), classes := [],
    parent := none }

/-- Counterexample to C4 as stated: with both `src` and `srcset` present, the
candidate is the srcset's first URL, not the `src` value. -/
theorem C4_src_priority_counterexample :
    selectSrc c4img = SelRes.got (str "set1.jpg") ∧
    SelRes.got (str "set1.jpg") ≠ SelRes.got (str "direct.jpg") := by decide

/-- Witness for C4 (amended) at the concrete element `c4img`. -/
theorem C4_src_priority_amended_witness :
    c4img.srcset = some (str "set1.jpg 1x, set2.jpg 2x") ∧
    selectSrc c4img = SelRes.got (str "set1.jpg") :=
  ⟨rfl, (C4_src_priority_amended c4img).2.1
    (str "set1.jpg 1x, set2.jpg 2x") (str "set1.jpg") rfl (by decide) (by decide)⟩

/-- A substring avoiding the separator lies on one side of it. -/
theorem substr_append_sep (k a b : Str) (c : Nat) (hc : c ∉ k) :
    substr k (a ++ c :: b) = (substr k a || substr k b) := by
  rw [Bool.eq_iff_iff, Bool.or_eq_true, substr_iff, substr_iff, substr_iff]
  constructor
  · rintro ⟨s, t, hst⟩
    rw [List.append_assoc] at hst
    rcases List.append_eq_append_iff.mp hst with ⟨a', ha, hrest⟩ | ⟨c', hs, hcb⟩
    · rcases List.append_eq_append_iff.mp hrest with ⟨a'', ha2, ht2⟩ | ⟨k', hk, hck⟩
      · left
        exact ⟨s, a'', by rw [ha, ha2, List.append_assoc]⟩
      · cases k' with
        | nil =>
          left
          rw [List.append_nil] at hk
          exact ⟨s, [], by rw [ha, hk, List.append_nil]⟩
        | cons k0 kr =>
          exfalso
          have : k0 = c := by
            have := congrArg List.head? hck
            simpa using this.symm
          apply hc
          rw [hk, this]
          exact List.mem_append_right _ (List.mem_cons_self _ _)
    · cases c' with
      | nil =>
        rw [List.append_nil] at hs
        cases k with
        | nil => left; exact ⟨[], a, by simp⟩
        | cons k0 kr =>
          exfalso
          simp only [List.nil_append] at hcb
          have : k0 = c := by
            have := congrArg List.head? hcb
            simpa using this.symm
          exact hc (by rw [this]; exact List.mem_cons_self _ _)
      | cons c0 cr =>
        right
        simp only [List.cons_append] at hcb
        have hb : b = cr ++ k ++ t := by
          have := congrArg List.tail hcb
          simpa [List.append_assoc] using this
        exact ⟨cr, t, by rw [hb, List.append_assoc]⟩
  · rintro (⟨s, t, rfl⟩ | ⟨s, t, rfl⟩)
    · exact ⟨s, t ++ c :: b, by simp⟩
    · exact ⟨a ++ c :: s, t, by simp⟩

/-- A space-free word occurs in a space-join iff it occurs in a part. -/
theorem substr_joinSpace (k : Str) (hk : (32 : Nat) ∉ k) (hkne : k ≠ []) :
    ∀ cls : List Str, substr k (joinSpace cls) = cls.any (fun c => substr k c) := by
  intro cls
  induction cls with
  | nil =>
    obtain ⟨k0, kr, rfl⟩ := List.exists_cons_of_ne_nil hkne
    simp [joinSpace, substr, begins]
  | cons c0 rest ih =>
    cases rest with
    | nil => simp [joinSpace]
    | cons c1 rest' =>
      rw [show joinSpace (c0 :: c1 :: rest') = c0 ++ 32 :: joinSpace (c1 :: rest')
        from rfl]
      rw [substr_append_sep k c0 (joinSpace (c1 :: rest')) 32 hk, ih]
      simp

/-- Lower-casing commutes with the space-join (the space is unchanged). -/
theorem lowerStr_joinSpace : ∀ cls : List Str,
    lowerStr (joinSpace cls) = joinSpace (cls.map lowerStr) := by
  intro cls
  induction cls with
  | nil => rfl
  | cons c0 rest ih =>
    cases rest with
    | nil => rfl
    | cons c1 rest' =>
      simp only [List.map_cons] at ih ⊢
      rw [show joinSpace (c0 :: c1 :: rest') = c0 ++ 32 :: joinSpace (c1 :: rest')
        from rfl,
        show joinSpace (lowerStr c0 :: lowerStr c1 :: rest'.map lowerStr) =
          lowerStr c0 ++ 32 :: joinSpace (lowerStr c1 :: rest'.map lowerStr) from rfl,
        ← ih]
      simp [lowerStr, lowerCp]

/-- Keyword-in-joined-class-string equals keyword-in-some-class. -/
theorem any_substr_joinSpace (ks : List Str)
    (hks : ∀ k ∈ ks, (32 : Nat) ∉ k ∧ k ≠ []) (cls : List Str) :
    ks.any (fun k => substr k (lowerStr (joinSpace cls))) =
      cls.any (fun c => ks.any (fun k => substr k (lowerStr c))) := by
  rw [Bool.eq_iff_iff]
  simp only [List.any_eq_true]
  constructor
  · rintro ⟨k, hkmem, hsub⟩
    rw [lowerStr_joinSpace,
      substr_joinSpace k (hks k hkmem).1 (hks k hkmem).2] at hsub
    simp only [List.any_eq_true, List.mem_map] at hsub
    obtain ⟨lc, ⟨c, hc, rfl⟩, hs⟩ := hsub
    exact ⟨c, hc, k, hkmem, hs⟩
  · rintro ⟨c, hc, k, hkmem, hs⟩
    refine ⟨k, hkmem, ?_⟩
    rw [lowerStr_joinSpace,
      substr_joinSpace k (hks k hkmem).1 (hks k hkmem).2]
    simp only [List.any_eq_true, List.mem_map]
    exact ⟨lowerStr c, ⟨c, hc, rfl⟩, hs⟩

theorem insertDesc_mem (x : Cand) : ∀ l z, z ∈ insertDesc x l ↔ z = x ∨ z ∈ l := by
  intro l
  induction l with
  | nil => intro z; simp [insertDesc]
  | cons y ys ih =>
    intro z
    unfold insertDesc
    by_cases h : y.score > x.score
    · rw [if_pos h]
      simp only [List.mem_cons, ih]
      tauto
    · rw [if_neg h]
      simp only [List.mem_cons]

theorem insertDesc_sorted (x : Cand) : ∀ l,
    List.Pairwise (fun a b => b.score ≤ a.score) l →
    List.Pairwise (fun a b => b.score ≤ a.score) (insertDesc x l) := by
  intro l
  induction l with
  | nil => intro _; simp [insertDesc]
  | cons y ys ih =>
    intro hp
    rw [List.pairwise_cons] at hp
    unfold insertDesc
    by_cases h : y.score > x.score
    · rw [if_pos h]
      rw [List.pairwise_cons]
      refine ⟨?_, ih hp.2⟩
      intro z hz
      rcases (insertDesc_mem x ys z).mp hz with rfl | hz'
      · omega
      · exact hp.1 z hz'
    · rw [if_neg h]
      rw [List.pairwise_cons]
      refine ⟨?_, List.pairwise_cons.mpr hp⟩
      intro z hz
      rcases List.mem_cons.mp hz with rfl | hz'
      · omega
      · have := hp.1 z hz'
        omega

theorem sortDesc_sorted : ∀ l : List Cand,
    List.Pairwise (fun a b => b.score ≤ a.score) (sortDesc l) := by
  intro l
  induction l with
  | nil => simp [sortDesc]
  | cons x xs ih => exact insertDesc_sorted x (sortDesc xs) ih

theorem insertDesc_filter (x : Cand) (n : Nat) : ∀ l : List Cand,
    (insertDesc x l).filter (fun c => c.score == n) =
      if x.score = n then x :: l.filter (fun c => c.score == n)
      else l.filter (fun c => c.score == n) := by
  intro l
  induction l with
  | nil =>
    by_cases hx : x.score = n <;>
      simp [insertDesc, List.filter_cons, hx]
  | cons y ys ih =>
    unfold insertDesc
    by_cases h : y.score > x.score
    · rw [if_pos h]
      by_cases hx : x.score = n
      · have hyn : ¬ y.score = n := by omega
        simp [List.filter_cons, hx, hyn, ih]
      · simp [List.filter_cons, hx, ih]
    · rw [if_neg h]
      by_cases hx : x.score = n <;>
        simp [List.filter_cons, hx]

theorem sortDesc_filter : ∀ (l : List Cand) (n : Nat),
    (sortDesc l).filter (fun c => c.score == n) =
      l.filter (fun c => c.score == n) := by
  intro l
  induction l with
  | nil => intro n; rfl
  | cons x xs ih =>
    intro n
    rw [show sortDesc (x :: xs) = insertDesc x (sortDesc xs) from rfl,
      insertDesc_filter]
    by_cases hx : x.score = n <;>
      simp [List.filter_cons, hx, ih]

/-- **C5 (amended).** An inline candidate scores +2 when some parent class
name contains a content-area keyword as a (case-insensitive) substring, +3
when its own class list contains a prominence keyword as an exact class token
(exact, case-sensitive list membership — not a substring match), 0 when
neither applies; and the candidate list is ordered by descending score with
document order preserved among equal scores (sorted pairwise, and each score
class filters to the original order). -/
theorem C5_inline_scoring_amended :
    (∀ img : ImgTag, scoreImg img =
      (if (match img.parent with
           | some p => p.classes
           | none => []).any
          (fun c => contentKws.any (fun k => substr k (lowerStr c))) then 2 else 0) +
      (if promKws.any (fun k => img.classes.contains k) then 3 else 0)) ∧
    (∀ l : List Cand,
      List.Pairwise (fun a b => b.score ≤ a.score) (sortDesc l) ∧
      ∀ n : Nat, (sortDesc l).filter (fun c => c.score == n) =
        l.filter (fun c => c.score == n)) := by
  constructor
  · intro img
    unfold scoreImg
    cases hp : img.parent with
    | none =>
      dsimp only
      rw [show contentKws.any (fun k => substr k (lowerStr [])) = false from by decide]
      simp
    | some p =>
      dsimp only
      rw [any_substr_joinSpace contentKws (by decide) p.classes]
  · intro l
    exact ⟨sortDesc_sorted l, fun n => sortDesc_filter l n⟩

/-- The scoring of the image's own class as claim C5 states it: a prominence
keyword occurring as a substring of a class name. -/
def claimScoreC5 (img : ImgTag) : Nat :=
  (if (match img.parent with
       | some p => p.classes
       | none => []).any
      (fun c => contentKws.any (fun k => substr k (lowerStr c))) then 2 else 0) +
  (if img.classes.any (fun c => promKws.any (fun k => substr k c)) then 3 else 0)

/-- An image whose own class is `featured-img`: the claimed substring scoring
gives 3, the code's exact membership test gives 0. -/
def c5img : ImgTag :=
  { src := some (str "x.jpg"), dataSrc := none, dataOriginal := none,
    srcset := none, classes := [str "featured-img"], parent := none }

/-- Counterexample to C5 as stated. -/
theorem C5_inline_scoring_counterexample :
    scoreImg c5img = 0 ∧ claimScoreC5 c5img = 3 := by decide

/-!
## Deduplication Store
(`load_posted_links` / `save_posted_links`, bot.v3.py lines 613-635 — the
later redefinitions, which are the ones in effect)

The persisted file is abstracted at the JSON level; the Python `set`
constructor applied to the parsed value is modelled exactly, including its
`TypeError` on non-iterable or unhashable content (`none`).
-/

/-- A hashable (scalar) JSON value — a valid member of a Python `set`. -/
inductive JAtom where
  | str (s : Str)
  | num (n : Int)
  | bool (b : Bool)
  | null
deriving DecidableEq

/-- Hashability of a JSON value: lists and objects are unhashable. -/
def toAtom : J → Option JAtom
  | .str s => some (.str s)
  | .num n => some (.num n)
  | .bool b => some (.bool b)
  | .null => some .null
  | .list _ => none
  | .obj _ => none

def toAtoms : List J → Option (List JAtom)
  | [] => some []
  | x :: xs =>
    match toAtom x, toAtoms xs with
    | some a, some rest => some (a :: rest)
    | _, _ => none

/-- Python `set(v)` on a parsed JSON value: the elements of an array (raising
on unhashable ones), the 1-character strings of a string, the keys of an
object; numbers, booleans and `null` are not iterable and raise. -/
def pySet : J → Option (Finset JAtom)
  | .list l =>
    match toAtoms l with
    | some atoms => some atoms.toFinset
    | none => none
  | .str s => some ((s.map (fun c => JAtom.str [c])).toFinset)
  | .obj fields => some ((fields.map (fun kv => JAtom.str kv.1)).toFinset)
  | .num _ => none
  | .bool _ => none
  | .null => none

/-- The on-disk state of `posted_links.json`: absent, empty or
whitespace-only content, unparseable content, or a parsed JSON value. -/
inductive FileState where
  | absent
  | empty
  | corrupt
  | json (j : J)

/-- `load_posted_links` (lines 613-626): `FileNotFoundError` and
`json.JSONDecodeError` are caught (empty set), empty content is special-cased
(empty set); otherwise `posted_links = set(json.loads(content))`, whose
`TypeError` is not caught. -/
def load_posted_links : FileState → Option (Finset JAtom)
  | .absent => some ∅
  | .empty => some ∅
  | .corrupt => some ∅
  | .json j => pySet j

/-- `save_posted_links` (lines 628-635): `json.dump(list(posted_links), f)` —
the file ends up holding a JSON array of the set's URLs in some enumeration
order `l`. -/
def save_posted_links (l : List Str) : FileState :=
  .json (.list (l.map J.str))

theorem toFinset_map_atom : ∀ l : List Str,
    (l.map JAtom.str).toFinset = l.toFinset.image JAtom.str := by
  intro l
  induction l with
  | nil => rfl
  | cons x xs ih => simp [ih]

theorem toAtoms_map_str : ∀ l : List Str,
    toAtoms (l.map J.str) = some (l.map JAtom.str) := by
  intro l
  induction l with
  | nil => rfl
  | cons x xs ih => simp [toAtoms, toAtom, ih]

/-- **C9.** Saving the set (as a list of its URLs in any enumeration order)
and loading it back in a fresh process reconstructs exactly the same set,
independent of the order in which URLs were inserted. -/
theorem C9_save_load_roundtrip (S : Finset Str) (l : List Str)
    (hl : l.toFinset = S) :
    load_posted_links (save_posted_links l) = some (S.image JAtom.str) ∧
    (∀ l' : List Str, l'.toFinset = S →
      load_posted_links (save_posted_links l') =
        load_posted_links (save_posted_links l)) := by
  have key : ∀ m : List Str, m.toFinset = S →
      load_posted_links (save_posted_links m) = some (S.image JAtom.str) := by
    intro m hm
    unfold load_posted_links save_posted_links pySet
    dsimp only
    rw [toAtoms_map_str m]
    dsimp only
    rw [toFinset_map_atom, hm]
  exact ⟨key l hl, fun l' hl' => (key l' hl').trans (key l hl).symm⟩

/-- Witness for C9 at two enumeration orders of the same two-element set. -/
theorem C9_save_load_roundtrip_witness :
    ([str "a", str "b"] : List Str).toFinset = ({str "a", str "b"} : Finset Str) ∧
    load_posted_links (save_posted_links [str "a", str "b"]) =
      some (({str "a", str "b"} : Finset Str).image JAtom.str) ∧
    load_posted_links (save_posted_links [str "b", str "a", str "a"]) =
      load_posted_links (save_posted_links [str "a", str "b"]) :=
  have h1 : ([str "a", str "b"] : List Str).toFinset = {str "a", str "b"} := by decide
  ⟨h1, (C9_save_load_roundtrip {str "a", str "b"} [str "a", str "b"] h1).1,
   (C9_save_load_roundtrip {str "a", str "b"} [str "a", str "b"] h1).2
     [str "b", str "a", str "a"] (by decide)⟩

/-- **C10 (amended).** A missing file, empty content or unparseable content
loads to the empty set without raising, and a valid JSON array of strings
loads to the set of its elements; however, other parseable JSON is passed
straight to `set(...)`: numbers, booleans and `null` raise an uncaught
`TypeError`, and a JSON string loads (without raising) to the possibly
non-empty set of its characters. -/
theorem C10_load_robustness_amended :
    load_posted_links .absent = some ∅ ∧
    load_posted_links .empty = some ∅ ∧
    load_posted_links .corrupt = some ∅ ∧
    (∀ l : List Str, load_posted_links (.json (.list (l.map J.str))) =
      some ((l.map JAtom.str).toFinset)) ∧
    (∀ n : Int, load_posted_links (.json (.num n)) = none) ∧
    (∀ b : Bool, load_posted_links (.json (.bool b)) = none) ∧
    load_posted_links (.json .null) = none ∧
    (∀ s : Str, load_posted_links (.json (.str s)) =
      some ((s.map (fun c => JAtom.str [c])).toFinset)) := by
  refine ⟨rfl, rfl, rfl, ?_, fun _ => rfl, fun _ => rfl, rfl, fun _ => rfl⟩
  intro l
  unfold load_posted_links pySet
  dsimp only
  rw [toAtoms_map_str l]

/-- Counterexample to C10 as stated: the valid non-array JSON content `"ab"`
loads without raising to a non-empty set, and the valid non-array JSON
content `5` makes `load` raise. -/
theorem C10_load_robustness_counterexample :
    load_posted_links (.json (.str (str "ab"))) =
      some ({JAtom.str (str "a"), JAtom.str (str "b")} : Finset JAtom) ∧
    ({JAtom.str (str "a"), JAtom.str (str "b")} : Finset JAtom) ≠ ∅ ∧
    load_posted_links (.json (.num 5)) = none := by decide

/-!
## Article Pipeline
(`process_and_send_news`, bot.v3.py lines 790-852)

The card builder and the Telegram sender are the environment; both catch all
their exceptions in the source (`create_professional_news_card` returns
`None` on failure, `send_telegram_photo_sync` returns `False`), so they are
total functions here.  The deduplication set is the explicit state.
-/

structure Article where
  title : Str
  link : Str

structure PEnv where
  createCard : Str → Str → Option (List Nat)
  sendPhoto : List Nat → Str → Bool

/-- The caption of line 820, built from the sanitized title. -/
def caption (a : Article) : Str :=
  str "📰 <b>" ++ sanitize_text a.title ++ str "</b>\n\n🔗 <a href='" ++
    a.link ++ str "'>Read Full Article</a>"

/-- Processing of one article (lines 803-847): skip when already posted,
create the card, send it, and only after a successful send add the link to
the set. -/
def processArticle (env : PEnv) (posted : Finset Str) (a : Article) : Finset Str :=
  if a.link ∈ posted then posted
  else
    match env.createCard a.title a.link with
    | none => posted
    | some card =>
      if env.sendPhoto card (caption a) then insert a.link posted
      else posted

/-- `process_and_send_news`: fold the per-article step over the scraped
articles. -/
def process_and_send_news (env : PEnv) (posted : Finset Str)
    (articles : List Article) : Finset Str :=
  articles.foldl (processArticle env) posted

/-- **C8.** A failed (or impossible) delivery leaves the deduplication set
unchanged, a successful delivery adds exactly the article's URL, and every
URL in the final set either was there initially or belongs to an article
whose photo delivery succeeded. -/
theorem C8_publish_before_add (env : PEnv) (posted : Finset Str) (a : Article)
    (articles : List Article) :
    (∀ card, env.createCard a.title a.link = some card →
      env.sendPhoto card (caption a) = false →
      processArticle env posted a = posted) ∧
    (env.createCard a.title a.link = none →
      processArticle env posted a = posted) ∧
    (∀ card, a.link ∉ posted → env.createCard a.title a.link = some card →
      env.sendPhoto card (caption a) = true →
      processArticle env posted a = insert a.link posted) ∧
    (∀ l, l ∈ process_and_send_news env posted articles →
      l ∈ posted ∨ ∃ art ∈ articles, art.link = l ∧
        ∃ card, env.createCard art.title art.link = some card ∧
          env.sendPhoto card (caption art) = true) := by
  refine ⟨?_, ?_, ?_, ?_⟩
  · intro card hc hs
    unfold processArticle
    by_cases hmem : a.link ∈ posted
    · rw [if_pos hmem]
    · rw [if_neg hmem, hc]
      dsimp only
      rw [if_neg (by rw [hs]; exact Bool.noConfusion)]
  · intro hc
    unfold processArticle
    by_cases hmem : a.link ∈ posted
    · rw [if_pos hmem]
    · rw [if_neg hmem, hc]
  · intro card hmem hc hs
    unfold processArticle
    rw [if_neg hmem, hc]
    dsimp only
    rw [if_pos hs]
  · suffices H : ∀ (arts : List Article) (P : Finset Str) (l : Str),
        l ∈ process_and_send_news env P arts →
        l ∈ P ∨ ∃ art ∈ arts, art.link = l ∧
          ∃ card, env.createCard art.title art.link = some card ∧
            env.sendPhoto card (caption art) = true by
      intro l hl
      exact H articles posted l hl
    intro arts
    induction arts with
    | nil => intro P l hl; exact Or.inl hl
    | cons a0 rest ih =>
      intro P l hl
      rw [show process_and_send_news env P (a0 :: rest) =
          process_and_send_news env (processArticle env P a0) rest from rfl] at hl
      rcases ih (processArticle env P a0) l hl with hP | ⟨art, hmem, hrest⟩
      · have hstep : l ∈ P ∨ (a0.link = l ∧
            ∃ card, env.createCard a0.title a0.link = some card ∧
              env.sendPhoto card (caption a0) = true) := by
          unfold processArticle at hP
          by_cases h1 : a0.link ∈ P
          · rw [if_pos h1] at hP
            exact Or.inl hP
          · rw [if_neg h1] at hP
            cases hc : env.createCard a0.title a0.link with
            | none =>
              rw [hc] at hP
              exact Or.inl hP
            | some card =>
              rw [hc] at hP
              dsimp only at hP
              by_cases hs : env.sendPhoto card (caption a0) = true
              · rw [if_pos hs] at hP
                rcases Finset.mem_insert.mp hP with rfl | hPm
                · exact Or.inr ⟨rfl, card, rfl, hs⟩
                · exact Or.inl hPm
              · rw [if_neg hs] at hP
                exact Or.inl hP
        rcases hstep with h | ⟨heq, card, hc, hs⟩
        · exact Or.inl h
        · exact Or.inr ⟨a0, List.mem_cons_self _ _, heq, card, hc, hs⟩
      · exact Or.inr ⟨art, List.mem_cons_of_mem _ hmem, hrest⟩

/-- A world whose delivery always fails. -/
def c8envFail : PEnv where
  createCard := fun _ _ => some [1]
  sendPhoto := fun _ _ => false

/-- A world whose delivery always succeeds. -/
def c8envOk : PEnv where
  createCard := fun _ _ => some [1]
  sendPhoto := fun _ _ => true

/-- Witness for C8: a failed send leaves the set empty, a successful one
inserts the link. -/
theorem C8_publish_before_add_witness :
    processArticle c8envFail ∅ { title := str "t", link := str "u" } = ∅ ∧
    (str "u" ∉ (∅ : Finset Str)) ∧
    processArticle c8envOk ∅ { title := str "t", link := str "u" } =
      insert (str "u") (∅ : Finset Str) :=
  ⟨(C8_publish_before_add c8envFail ∅ { title := str "t", link := str "u" } []).1
      [1] rfl rfl,
   by decide,
   (C8_publish_before_add c8envOk ∅ { title := str "t", link := str "u" } []).2.2.1
      [1] (by decide) rfl rfl⟩
